import Mathlib

/-!
# Shell.cpp: a shallow embedding and its checked properties

The development embeds the text-processing core of `src/Shell.cpp`
(tokenizer, `tail`, `uniq`, command dispatcher, pipeline executor) as
executable Lean functions and proves or refutes statements about them.

Conventions of the embedding.

* A `std::string` is a `List Char`; one `Char` stands for one `char`.
* `string::npos` is `none` in an `Option Nat`; every other `size_t` value is a
  `Nat`.  An `int` is an `Int` kept inside `[-2^31, 2^31)` by `to_int`.
* A call that does not return normally yields `Except.error` with the kind of
  failure: an uncaught `std::out_of_range`, undefined behaviour (an index past
  the end of a `vector`), or a loop that never ends.
* The services of the operating system and of the libraries are the fields of
  an `Env`; the writes to the `debug` log stream are left out.
-/

namespace Shell

/-- A `std::string`, one `Char` per `char`. -/
abbrev Str := List Char

/-- The ways in which a call can fail to return normally. -/
inductive Fault where
  | out_of_range
  | undefined
  | hang
  deriving DecidableEq, Repr

deriving instance DecidableEq for Except

/-- Source line 13: `const string WHITESPACES = " \t";`. -/
def WHITESPACES : Str := [' ', '\t']

/-- Index of the first character satisfying `p`, the head of the list having
index `i`; `none` when there is none. -/
def scan (p : Char → Bool) : Str → Nat → Option Nat
  | [], _ => none
  | c :: cs, i => if p c then some i else scan p cs (i + 1)

/-- The call `str.find_first_not_of(pattern, pos)`; `none` is `npos`. -/
def find_first_not_of (str pattern : Str) (pos : Nat) : Option Nat :=
  scan (fun c => !pattern.contains c) (str.drop pos) pos

/-- The call `str.find_first_of(pattern, pos)`; `none` is `npos`. -/
def find_first_of (str pattern : Str) (pos : Nat) : Option Nat :=
  scan (fun c => pattern.contains c) (str.drop pos) pos

/-- The call `str.find_last_not_of(pattern)`; `none` is `npos`. -/
def find_last_not_of (str pattern : Str) : Option Nat :=
  match scan (fun c => !pattern.contains c) str.reverse 0 with
  | none => none
  | some k => some (str.length - 1 - k)

/-- The call `str.substr(pos, n)`: throws `std::out_of_range` when
`pos > size()`, otherwise the `min(n, size() - pos)` characters from `pos`. -/
def substr (str : Str) (pos n : Nat) : Except Fault Str :=
  if pos > str.length then .error .out_of_range else .ok ((str.drop pos).take n)

/-- The call `str.substr(pos)`, whose count is `npos`. -/
def substr_from (str : Str) (pos : Nat) : Except Fault Str :=
  if pos > str.length then .error .out_of_range else .ok (str.drop pos)

/-- Source lines 17-22.  When the string has no character outside
`WHITESPACES`, `start` is `npos` and `substr(npos, ...)` throws, whatever the
count.  The count `stop - start + 1` is computed in `size_t`; the branch with
`stop = npos` and `start` found keeps that arithmetic modulo `2^64`. -/
def trim (str : Str) : Except Fault Str :=
  match find_first_not_of str WHITESPACES 0 with
  | none => .error .out_of_range
  | some start =>
    match find_last_not_of str WHITESPACES with
    | some stop => substr str start (stop - start + 1)
    | none => substr str start ((2 ^ 64 - 1 - start + 1) % 2 ^ 64)

/-- The `do ... while` loop of source lines 29-45, one iteration per unit of
fuel; `stop` and `result` are the loop variables. -/
def split_loop (str pattern : Str) : Nat → Nat → List Str → Except Fault (List Str)
  | 0, _, _ => .error .hang
  | fuel + 1, stop, result =>
    match find_first_not_of str pattern stop with
    | none => .ok result
    | some start =>
      match find_first_of str pattern start with
      | none =>
        match substr_from str start with
        | .error e => .error e
        | .ok piece =>
          match trim piece with
          | .error e => .error e
          | .ok t => .ok (result ++ [t])
      | some stop' =>
        match substr str start (stop' - start) with
        | .error e => .error e
        | .ok piece =>
          match trim piece with
          | .error e => .error e
          | .ok t => split_loop str pattern fuel stop' (result ++ [t])

/-- Source lines 25-47.  Every iteration but the last moves `stop` forward by
at least one, so `str.length + 1` iterations are enough
(`split_by_any_of_eq`). -/
def split_by_any_of (str pattern : Str) : Except Fault (List Str) :=
  split_loop str pattern (str.length + 1) 0 []

/-- The C library call `tolower` in the "C" locale, on one `char`. -/
def tolower (c : Char) : Char :=
  if 'A' ≤ c ∧ c ≤ 'Z' then Char.ofNat (c.toNat + 32) else c

/-- Source lines 50-65.  The `for` loop stops reading as soon as `result` is
false, so no index past the end of `right` is read. -/
def string_equal (left right : Str) (ignore_case : Bool) : Bool :=
  let result := left.length == right.length
  if ignore_case then
    (List.range left.length).foldl
      (fun result idx =>
        if result then tolower (left.getD idx '\x00') == tolower (right.getD idx '\x00')
        else result)
      result
  else
    left == right

/-- Conversion of an integer value to `size_t` (64 bits, unsigned). -/
def to_size_t (n : Int) : Nat := (n % 2 ^ 64).toNat

/-- Conversion of an integer value to `int` (32 bits, two's complement). -/
def to_int (n : Int) : Int := (n + 2 ^ 31) % 2 ^ 32 - 2 ^ 31

/-- The call `s.c_str()` read as a C string: the characters before the first
NUL. -/
def c_str (s : Str) : Str := s.takeWhile (fun c => c != '\x00')

/-- The C library predicate `isspace` in the "C" locale. -/
def isspace (c : Char) : Bool :=
  c == ' ' || c == '\t' || c == '\n' || c == '\x0b' || c == '\x0c' || c == '\r'

/-- The number that `atoi` reads in a C string: leading `isspace` characters
are skipped, an optional sign is read, then decimal digits up to the first
character that is not one. -/
def atoi_value (s : Str) : Int :=
  let body := (c_str s).dropWhile isspace
  let signed : Bool × Str :=
    match body with
    | '-' :: r => (true, r)
    | '+' :: r => (false, r)
    | r => (false, r)
  let value : Nat :=
    (signed.2.takeWhile Char.isDigit).foldl (fun acc c => 10 * acc + (c.toNat - 48)) 0
  if signed.1 then -(value : Int) else (value : Int)

/-- The C library call `strtol(s, NULL, 10)` with a 64-bit `long`: the number
read, held to `LONG_MIN` and `LONG_MAX` when it lies outside. -/
def strtol (s : Str) : Int :=
  if atoi_value s < -(2 : Int) ^ 63 then -(2 : Int) ^ 63
  else if atoi_value s ≥ 2 ^ 63 then 2 ^ 63 - 1
  else atoi_value s

/-- The C library call `atoi`, which is `(int) strtol(s, NULL, 10)`: it always
returns, and a number that does not fit an `int` comes back truncated to its
low 32 bits (`4294967297` is read as `1`). -/
def atoi (s : Str) : Except Fault Int := .ok (to_int (strtol s))

/-- The local variables `lines`, `verbosity`, `count`, `files` of
`command_tail` (source lines 71-73). -/
structure TailOpts where
  lines : Bool
  verbosity : Int
  count : Int
  files : List Str
  deriving DecidableEq, Repr

/-- Source lines 71-73: the initial values. -/
def TailOpts.init : TailOpts := ⟨true, 1, 10, []⟩

/-- The test `arg[idx].find(flag) == 0`. -/
def starts_with (flag a : Str) : Bool := a.take flag.length == flag

/-- The argument loop of `command_tail`, source lines 74-110, over the
arguments from `arg[idx]` on.  After `-c` and `-n` the loop reads
`arg[idx + 1]` without a bounds check: past the end of the vector that read is
undefined behaviour. -/
def tail_args : List Str → TailOpts → Except Fault TailOpts
  | [], o => .ok o
  | a :: rest, o =>
    if a = "-q".toList ∨ a = "--quiet".toList ∨ a = "--silent".toList then
      tail_args rest { o with verbosity := 0 }
    else if a = "-v".toList ∨ a = "--verbose".toList then
      tail_args rest { o with verbosity := 2 }
    else if a = "-c".toList then
      match rest with
      | [] => .error .undefined
      | v :: rest' =>
        match atoi v with
        | .error e => .error e
        | .ok n => tail_args rest' { o with lines := false, count := n }
    else if starts_with "--bytes=".toList a then
      match atoi (a.drop 8) with
      | .error e => .error e
      | .ok n => tail_args rest { o with lines := false, count := n }
    else if a = "-n".toList then
      match rest with
      | [] => .error .undefined
      | v :: rest' =>
        match atoi v with
        | .error e => .error e
        | .ok n => tail_args rest' { o with lines := true, count := n }
    else if starts_with "--lines=".toList a then
      match atoi (a.drop 8) with
      | .error e => .error e
      | .ok n => tail_args rest { o with lines := true, count := n }
    else if a.head? ≠ some '-' then
      tail_args rest { o with files := o.files ++ [a] }
    else
      tail_args rest o

/-- The statement `data += t + "\n"` repeated over the rows `ts`. -/
def append_rows (data : Str) (ts : List Str) : Str :=
  ts.foldl (fun d t => d ++ (t ++ ['\n'])) data

/-- Source lines 115-125: line mode on the pipeline buffer.  `start` is an
`int` assigned from the `size_t` difference `tail.size() - count`. -/
def tail_buffer_lines (count : Int) (data : Str) : Except Fault Str :=
  match split_by_any_of data ['\n'] with
  | .error e => .error e
  | .ok tail =>
    let start : Int := to_int (to_size_t ((tail.length : Int) - count))
    let start : Int := if start < 0 then 0 else start
    .ok (append_rows [] (tail.drop (to_size_t start)))

/-- Source lines 162-167: byte mode on the pipeline buffer. -/
def tail_buffer_bytes (count : Int) (data : Str) : Except Fault Str :=
  let start : Int := to_int (to_size_t ((data.length : Int) - count - 1))
  let start : Int := if start < 0 then 0 else start
  substr data (to_size_t start) (to_size_t ((data.length : Int) - start))

/-- What the program asks of its surroundings, over a state `σ` of the world
outside the process.  These are operating-system and library services, not
code of the repository.

* `read_file st path` is the content of `path` when it can be opened for
  reading, `none` otherwise.
* `write_file st path content` is the world after `path` was opened with
  `fstream::out` (truncating) and `content` written and flushed.
* `chdir st path` is the world after `chdir(path)`; `none` is a null pointer.
* `getenv_HOME st` is `getenv("HOME")`.
* `system_exec cmd data st` is the whole of source lines 304-331 (pipes, `fork`,
  `/bin/sh -c cmd`): the new buffer and world, or a failure to return.
* `printw st text` is the world after `printw("%s", text)`. -/
structure Env (σ : Type) where
  read_file : σ → Str → Option Str
  write_file : σ → Str → Str → σ
  chdir : σ → Option Str → σ
  getenv_HOME : σ → Option Str
  system_exec : Str → Str → σ → Except Fault (Str × σ)
  printw : σ → Str → σ

/-- One call `getline(stream, line)` on a stream in good state whose unread
characters are the argument: the line read, the characters left unread, and
whether `eofbit` is now set (the end was reached before a newline). -/
def getline : Str → Str × Str × Bool
  | [] => ([], [], true)
  | c :: cs =>
    if c = '\n' then ([], cs, false)
    else ((c :: (getline cs).1), (getline cs).2.1, (getline cs).2.2)

/-- Source lines 141-149: the sliding window over the lines of one opened
file.  The stream is fresh, so the loop body runs at least once. -/
def tail_window (count : Int) : Nat → Str → List Str → Except Fault (List Str)
  | 0, _, _ => .error .hang
  | fuel + 1, rest, tail =>
    let r := getline rest
    let tail := tail ++ [r.1]
    let tail := if tail.length > to_size_t (count + 1) then tail.drop 1 else tail
    if r.2.2 then .ok tail else tail_window count fuel r.2.1 tail

/-- The header test and statement of source lines 136-139 and 176-179. -/
def tail_header (o : TailOpts) (f data : Str) : Str :=
  if to_size_t (o.verbosity * (o.files.length : Int)) > 1 then
    data ++ ("==> ".toList ++ f ++ " <==\n".toList)
  else data

/-- Source lines 133-155: line mode over the files still to be read; `eofbit`
is that bit of `reader`, the one `fstream` of line 131 that serves every file.
A successful `open` clears the state of the stream and the reading loop ends
with `eofbit` set; `close` and a failed `open` leave `eofbit` as it was.  So a
file that cannot be opened is skipped when a file was read before it (the
`while (!reader.eof())` loop does not start, `tail` is empty), and makes the
loop run for ever when no file was read before it.  The loop body computes
`count + 1` in `int`, which overflows for `count = 2^31 - 1`. -/
def tail_files_lines {σ : Type} (env : Env σ) (st : σ) (o : TailOpts) :
    Bool → List Str → Str → Except Fault Str
  | _, [], data => .ok data
  | eofbit, f :: fs, data =>
    let data := tail_header o f data
    match env.read_file st (c_str f) with
    | none =>
      if eofbit then tail_files_lines env st o eofbit fs data
      else if o.count + 1 ≥ 2 ^ 31 then .error .undefined
      else .error .hang
    | some content =>
      if o.count + 1 ≥ 2 ^ 31 then .error .undefined
      else
        match tail_window o.count (content.length + 1) content [] with
        | .error e => .error e
        | .ok tail => tail_files_lines env st o true fs (append_rows data tail)

/-- Source lines 174-193: byte mode over the files still to be read.  With
the stream failed (file not opened) every call on it does nothing and `get`
stores only the terminator. -/
def tail_files_bytes {σ : Type} (env : Env σ) (st : σ) (o : TailOpts) :
    List Str → Str → Except Fault Str
  | [], data => .ok data
  | f :: fs, data =>
    let data := tail_header o f data
    let buffer : Str :=
      match env.read_file st (c_str f) with
      | none => []
      | some content =>
        let «end» : Int := to_int (content.length : Int)
        let start : Int := to_int («end» - o.count)
        let start : Int := if start < 0 then 0 else start
        c_str ((content.drop (to_size_t start)).take (to_size_t (o.count - 1)))
    tail_files_bytes env st o fs (data ++ buffer ++ ['\n'])

/-- Source lines 68-196.  In byte mode with files the array
`char buffer[count + 1]` and the call `get(buffer, count, ...)` need
`1 ≤ count < 2^31 - 1`; otherwise the behaviour is undefined. -/
def command_tail {σ : Type} (env : Env σ) (st : σ) (arg : List Str) (data : Str) :
    Except Fault Str :=
  match tail_args (arg.drop 1) TailOpts.init with
  | .error e => .error e
  | .ok o =>
    if o.lines then
      if o.files.length = 0 then tail_buffer_lines o.count data
      else tail_files_lines env st o false o.files []
    else
      if o.files.length = 0 then tail_buffer_bytes o.count data
      else if o.count < 1 ∨ o.count + 1 ≥ 2 ^ 31 then .error .undefined
      else tail_files_bytes env st o o.files data

/-- The local variables `ignore_case`, `duplicate`, `input`, `output` of
`command_uniq` (source lines 202-203). -/
structure UniqOpts where
  ignore_case : Bool
  duplicate : Bool
  input : Str
  output : Str
  deriving DecidableEq, Repr

/-- Source lines 202-203: the initial values. -/
def UniqOpts.init : UniqOpts := ⟨false, false, [], []⟩

/-- The argument loop of `command_uniq`, source lines 204-229. -/
def uniq_args : List Str → UniqOpts → UniqOpts
  | [], o => o
  | a :: rest, o =>
    if a = "-i".toList ∨ a = "--ignore-case".toList then
      uniq_args rest { o with ignore_case := true }
    else if a = "-d".toList ∨ a = "--repeated".toList then
      uniq_args rest { o with duplicate := true }
    else if a = "-u".toList ∨ a = "--unique".toList then
      uniq_args rest { o with duplicate := false }
    else if a.head? ≠ some '-' then
      if o.input.length = 0 then uniq_args rest { o with input := a }
      else if o.output.length = 0 then uniq_args rest { o with output := a }
      else uniq_args rest o
    else
      uniq_args rest o

/-- The variables that the reading loop of `command_uniq` updates, and the
text written to `writer` so far. -/
structure UniqState where
  previous : Str
  current : Str
  first : Bool
  written : Str
  deriving DecidableEq, Repr

/-- Source lines 250-268, over a stream that was opened: the stream is fresh
on entry, so the body runs, and the `eof()` test follows each `getline`. -/
def uniq_loop (ignore_case duplicate : Bool) : Nat → Str → UniqState → Except Fault UniqState
  | 0, _, _ => .error .hang
  | fuel + 1, rest, s =>
    let previous :=
      if !string_equal s.previous s.current ignore_case then s.current else s.previous
    let r := getline rest
    let current := r.1
    let s' : UniqState :=
      if duplicate == string_equal previous current ignore_case then
        if s.first then ⟨previous, current, false, s.written⟩
        else ⟨previous, current, s.first, s.written ++ (previous ++ ['\n'])⟩
      else ⟨previous, current, s.first, s.written⟩
    if r.2.2 then .ok s' else uniq_loop ignore_case duplicate fuel r.2.1 s'

/-- Source lines 230-272 over the characters `source` of the opened reader:
the loop, then the final test and write; the result is all that was written
to `writer`. -/
def uniq_filter (ignore_case duplicate : Bool) (source : Str) : Except Fault Str :=
  match uniq_loop ignore_case duplicate (source.length + 1) source ⟨[], [], true, []⟩ with
  | .error e => .error e
  | .ok s =>
    if !duplicate && !string_equal s.previous s.current ignore_case then
      .ok (s.written ++ (s.current ++ ['\n']))
    else .ok s.written

/-- Source lines 199-288.  The reader is opened before the writer; opening the
writer truncates its file, so a reader on the same path finds it empty.  A
reader that failed to open never reaches `eof()`. -/
def command_uniq {σ : Type} (env : Env σ) (arg : List Str) (data : Str) (st : σ) :
    Except Fault (Str × σ) :=
  let o := uniq_args (arg.drop 1) UniqOpts.init
  let source : Option Str :=
    if o.input.length = 0 then some data
    else
      match env.read_file st (c_str o.input) with
      | none => none
      | some content =>
        if o.output.length ≠ 0 ∧ c_str o.output = c_str o.input then some [] else some content
  let data := if o.input.length = 0 then [] else data
  match source with
  | none => .error .hang
  | some source =>
    match uniq_filter o.ignore_case o.duplicate source with
    | .error e => .error e
    | .ok written =>
      if o.output.length > 0 then .ok (data, env.write_file st (c_str o.output) written)
      else .ok (written, st)

/-- Source lines 291-302. -/
def command_cd {σ : Type} (env : Env σ) (arg : List Str) (st : σ) : σ :=
  if arg.length < 2 then env.chdir st (env.getenv_HOME st)
  else env.chdir st (some (c_str (arg.getD 1 [])))

/-- Source lines 334-360: the continue flag, the buffer and the world after
one stage.  `token[0]` on an empty vector is undefined behaviour. -/
def execute_command {σ : Type} (env : Env σ) (cmd data : Str) (st : σ) :
    Except Fault (Bool × Str × σ) :=
  match split_by_any_of cmd WHITESPACES with
  | .error e => .error e
  | .ok token =>
    match token.head? with
    | none => .error .undefined
    | some t0 =>
      if t0 = "exit".toList then .ok (false, data, st)
      else if t0 = "tail".toList then
        match command_tail env st token data with
        | .error e => .error e
        | .ok data' => .ok (true, data', st)
      else if t0 = "uniq".toList then
        match command_uniq env token data st with
        | .error e => .error e
        | .ok r => .ok (true, r.1, r.2)
      else if t0 = "cd".toList then .ok (true, data, command_cd env token st)
      else
        match env.system_exec cmd data st with
        | .error e => .error e
        | .ok r => .ok (true, r.1, r.2)

/-- Source lines 367-377: the stage list `command` and the redirection target
`file` (empty when there is none).  `command[command.size() - 1]` on an empty
vector is undefined behaviour.  The test `find(">") != string::npos`, with its
one-character pattern, is `find_first_of` from position 0. -/
def parse_line (line : Str) : Except Fault (List Str × Str) :=
  match split_by_any_of line ['|'] with
  | .error e => .error e
  | .ok command =>
    match command.getLast? with
    | none => .error .undefined
    | some last =>
      if (find_first_of last ['>'] 0).isSome then
        match split_by_any_of last ['>'] with
        | .error e => .error e
        | .ok tokens =>
          match tokens with
          | t0 :: t1 :: _ => .ok (command.dropLast ++ [t0], t1)
          | _ => .ok (command, [])
      else .ok (command, [])

/-- Source lines 378-381: the stages from `command[i]` on. -/
def run_stages {σ : Type} (env : Env σ) : List Str → Bool → Str → σ →
    Except Fault (Bool × Str × σ)
  | [], result, data, st => .ok (result, data, st)
  | c :: cs, result, data, st =>
    if result then
      match execute_command env c data st with
      | .error e => .error e
      | .ok r => run_stages env cs r.1 r.2.1 r.2.2
    else .ok (result, data, st)

/-- Source lines 363-394: the returned flag and the world after the line. -/
def execute_line {σ : Type} (env : Env σ) (line : Str) (st : σ) : Except Fault (Bool × σ) :=
  match parse_line line with
  | .error e => .error e
  | .ok (command, file) =>
    match run_stages env command true [] st with
    | .error e => .error e
    | .ok r =>
      if file.length = 0 then .ok (r.1, env.printw r.2.2 (c_str r.2.1))
      else .ok (r.1, env.write_file r.2.2 (c_str file) r.2.1)

/-- Source lines 382-392: the final buffer goes to the terminal when `file` is
empty, and otherwise to the file named `file`, opened with `fstream::out`. -/
def output_sink {σ : Type} (env : Env σ) (file data : Str) (st : σ) : σ :=
  if file.length = 0 then env.printw st (c_str data) else env.write_file st (c_str file) data

/-- The stages for which the loop of source lines 378-381 calls
`execute_command`, in the order of the calls. -/
def dispatched {σ : Type} (env : Env σ) : List Str → Bool → Str → σ → List Str
  | [], _, _, _ => []
  | c :: cs, result, data, st =>
    if result then
      c :: (match execute_command env c data st with
        | .error _ => []
        | .ok r => dispatched env cs r.1 r.2.1 r.2.2)
    else []

/-! ## Reference definitions, written from the specification -/

/-- A space or a tab: a character of `WHITESPACES`. -/
def is_ws (c : Char) : Bool := WHITESPACES.contains c

/-- A string with its leading and trailing spaces and tabs removed. -/
def strip (s : Str) : Str := (s.dropWhile is_ws).rdropWhile is_ws

/-- The maximal runs of non-delimiter characters of `text`, in order of
occurrence: `text` is cut at every delimiter character and the empty pieces
are dropped. -/
def maximal_runs (pattern text : Str) : List Str :=
  (text.splitOnP (fun c => pattern.contains c)).filter (fun f => !f.isEmpty)

/-- The rows `ls`, each followed by one newline. -/
def unlines (ls : List Str) : Str := ls.flatMap (fun l => l ++ ['\n'])

/-- The last `min(n, k)` elements of a list of `k` elements, in order. -/
def last_rows (n : Nat) (ts : List Str) : List Str :=
  ts.drop (ts.length - min n ts.length)

/-- `trim` applied to every string of a list, failing at the first that
fails. -/
def trim_all : List Str → Except Fault (List Str)
  | [] => .ok []
  | f :: fs =>
    match trim f with
    | .error e => .error e
    | .ok t =>
      match trim_all fs with
      | .error e => .error e
      | .ok ts => .ok (t :: ts)

/-- An already-trimmed single token for the delimiter set `d`: non-empty, free
of delimiter characters, with no leading and no trailing space or tab. -/
def is_token (d t : Str) : Prop :=
  t ≠ [] ∧ (∀ c ∈ t, d.contains c = false) ∧
    (∀ c, t.head? = some c → is_ws c = false) ∧ (∀ c, t.getLast? = some c → is_ws c = false)

/-- A world with no files, no `HOME`, and external commands that leave the
buffer as it is; used to evaluate the program on concrete inputs. -/
def idle_env : Env Unit where
  read_file := fun _ _ => none
  write_file := fun _ _ _ => ()
  chdir := fun _ _ => ()
  getenv_HOME := fun _ => none
  system_exec := fun _ data _ => .ok (data, ())
  printw := fun _ _ => ()

/-- A world made of named files and of the text shown on the terminal. -/
structure World where
  files : List (Str × Str)
  screen : Str
  deriving DecidableEq, Repr

/-- The services over a `World`: a file can be read when it is listed, writing
a file replaces its entry, `printw` appends to the screen, external commands
leave the buffer as it is, and there is no `HOME`. -/
def file_env : Env World where
  read_file := fun w path => (w.files.find? (fun f => f.1 == path)).map (fun f => f.2)
  write_file := fun w path content =>
    { w with files := (path, content) :: w.files.filter (fun f => f.1 != path) }
  chdir := fun w _ => w
  getenv_HOME := fun _ => none
  system_exec := fun _ data w => .ok (data, w)
  printw := fun w text => { w with screen := w.screen ++ text }

/-- The flags that the argument loop of `command_tail` recognizes. -/
def tail_recognized (a : Str) : Prop :=
  a = "-q".toList ∨ a = "--quiet".toList ∨ a = "--silent".toList ∨ a = "-v".toList ∨
    a = "--verbose".toList ∨ a = "-c".toList ∨ a = "-n".toList ∨
    starts_with "--bytes=".toList a = true ∨ starts_with "--lines=".toList a = true

/-- The flags that the argument loop of `command_uniq` recognizes. -/
def uniq_recognized (a : Str) : Prop :=
  a = "-i".toList ∨ a = "--ignore-case".toList ∨ a = "-d".toList ∨ a = "--repeated".toList ∨
    a = "-u".toList ∨ a = "--unique".toList

/-- A buffer of `2^31` rows `a`, each followed by a newline. -/
def big_buffer : Str := unlines (List.replicate (2 ^ 31) ['a'])

/-! ## The tokenizer -/

theorem scan_none_iff (p : Char → Bool) (l : Str) (i : Nat) :
    scan p l i = none ↔ ∀ c ∈ l, p c = false := by
  induction l generalizing i with
  | nil => simp [scan]
  | cons c cs ih =>
    by_cases h : p c = true
    · simp [scan, h]
    · simp [scan, h, ih]

theorem scan_some (p : Char → Bool) (l : Str) (i j : Nat) (h : scan p l i = some j) :
    j = i + (l.takeWhile (fun c => !p c)).length ∧
      ∃ c t, l.dropWhile (fun c => !p c) = c :: t ∧ p c = true := by
  induction l generalizing i with
  | nil => simp [scan] at h
  | cons c cs ih =>
    by_cases hc : p c = true
    · simp [scan, hc] at h
      subst h
      simp [List.takeWhile, List.dropWhile, hc]
    · simp [scan, hc] at h
      obtain ⟨h1, h2⟩ := ih (i + 1) h
      simp only [Bool.not_eq_true] at hc
      simp [List.takeWhile, List.dropWhile, hc]
      refine ⟨by omega, ?_⟩
      simpa using h2

theorem drop_length_takeWhile (q : Char → Bool) (l : Str) :
    l.drop (l.takeWhile q).length = l.dropWhile q := by
  induction l with
  | nil => rfl
  | cons c cs ih => by_cases h : q c = true <;> simp [List.takeWhile, List.dropWhile, h, ih]

theorem take_length_takeWhile (q : Char → Bool) (l : Str) :
    l.take (l.takeWhile q).length = l.takeWhile q := by
  induction l with
  | nil => rfl
  | cons c cs ih => by_cases h : q c = true <;> simp [List.takeWhile, h, ih]

theorem takeWhile_append_of_exists (q : Char → Bool) (xs ys : Str)
    (h : ∃ x ∈ xs, q x = false) : (xs ++ ys).takeWhile q = xs.takeWhile q := by
  induction xs with
  | nil => simp at h
  | cons c cs ih =>
    by_cases hc : q c = true
    · have : ∃ x ∈ cs, q x = false := by
        obtain ⟨x, hx, hq⟩ := h
        rcases List.mem_cons.mp hx with rfl | hx
        · simp [hc] at hq
        · exact ⟨x, hx, hq⟩
      simp [List.takeWhile, hc, ih this]
    · simp [List.takeWhile, hc]

theorem take_sub_eq_rdropWhile (q : Char → Bool) (r : Str) :
    r.take (r.length - (r.reverse.takeWhile q).length) = r.rdropWhile q := by
  unfold List.rdropWhile
  rw [← drop_length_takeWhile q r.reverse, List.drop_reverse, List.reverse_reverse]

theorem not_not_fun (f : Char → Bool) : (fun c => !(!f c)) = f := by
  funext c; simp

theorem length_takeWhile_lt_of_exists (q : Char → Bool) (xs : Str)
    (h : ∃ x ∈ xs, q x = false) : (xs.takeWhile q).length < xs.length := by
  induction xs with
  | nil => simp at h
  | cons c cs ih =>
    by_cases hc : q c = true
    · have : ∃ x ∈ cs, q x = false := by
        obtain ⟨x, hx, hq⟩ := h
        rcases List.mem_cons.mp hx with rfl | hx
        · simp [hc] at hq
        · exact ⟨x, hx, hq⟩
      simp [List.takeWhile, hc, ih this]
    · simp [List.takeWhile, hc]

theorem length_takeWhile_le (q : Char → Bool) (xs : Str) :
    (xs.takeWhile q).length ≤ xs.length := by
  induction xs with
  | nil => simp
  | cons c cs ih => by_cases hc : q c = true <;> simp [List.takeWhile, hc, ih]

theorem dropWhile_head_of_exists (q : Char → Bool) (s : Str) (h : ∃ x ∈ s, q x = false) :
    ∃ c t, s.dropWhile q = c :: t ∧ q c = false := by
  induction s with
  | nil => simp at h
  | cons a as ih =>
    by_cases ha : q a = true
    · have : ∃ x ∈ as, q x = false := by
        obtain ⟨x, hx, hq⟩ := h
        rcases List.mem_cons.mp hx with rfl | hx
        · simp [ha] at hq
        · exact ⟨x, hx, hq⟩
      simpa [List.dropWhile, ha] using ih this
    · exact ⟨a, as, by simp [List.dropWhile, ha], by simpa using ha⟩

theorem scan_not_ws_none (s : Str) (i : Nat) :
    scan (fun c => !WHITESPACES.contains c) s i = none ↔ ∀ c ∈ s, is_ws c = true := by
  rw [scan_none_iff]
  constructor
  · intro h c hc
    have := h c hc
    unfold is_ws
    cases hw : WHITESPACES.contains c
    · rw [hw] at this; exact absurd this (by decide)
    · rfl
  · intro h c hc
    have := h c hc
    unfold is_ws at this
    rw [this]; rfl

/-- `trim` throws exactly on the strings made of spaces and tabs only (the
empty string among them). -/
theorem trim_error (s : Str) (h : ∀ c ∈ s, is_ws c = true) :
    trim s = .error .out_of_range := by
  have := (scan_not_ws_none s 0).mpr h
  simp only [trim, find_first_not_of, List.drop_zero, this]

/-- On every other string `trim` returns the string stripped. -/
theorem trim_ok (s : Str) (h : ∃ c ∈ s, is_ws c = false) : trim s = .ok (strip s) := by
  obtain ⟨x, hx, hxw⟩ := h
  cases h1 : scan (fun c => !WHITESPACES.contains c) s 0 with
  | none =>
    rw [scan_not_ws_none] at h1
    rw [h1 x hx] at hxw
    exact absurd hxw (by decide)
  | some start =>
    obtain ⟨hs, -⟩ := scan_some _ _ _ _ h1
    simp only [not_not_fun] at hs
    change start = 0 + (s.takeWhile is_ws).length at hs
    obtain ⟨c, t, hd, hc⟩ := dropWhile_head_of_exists is_ws s ⟨x, hx, hxw⟩
    have hcr : ∃ y ∈ (s.dropWhile is_ws).reverse, is_ws y = false :=
      ⟨c, by simp [hd], hc⟩
    have hrev : s.reverse = (s.dropWhile is_ws).reverse ++ (s.takeWhile is_ws).reverse := by
      rw [← List.reverse_append, List.takeWhile_append_dropWhile]
    cases h2 : scan (fun c => !WHITESPACES.contains c) s.reverse 0 with
    | none =>
      rw [scan_not_ws_none] at h2
      rw [h2 x (by simpa using hx)] at hxw
      exact absurd hxw (by decide)
    | some k =>
      obtain ⟨hk, -⟩ := scan_some _ _ _ _ h2
      simp only [not_not_fun] at hk
      change k = 0 + (s.reverse.takeWhile is_ws).length at hk
      rw [hrev, takeWhile_append_of_exists _ _ _ hcr] at hk
      have hlt := length_takeWhile_lt_of_exists _ _ hcr
      have hle : (s.takeWhile is_ws).length ≤ s.length := length_takeWhile_le _ _
      have hdrop : s.drop start = s.dropWhile is_ws := by
        rw [hs, Nat.zero_add, drop_length_takeWhile]
      have hlen : (s.dropWhile is_ws).length = s.length - start := by
        rw [← hdrop, List.length_drop]
      simp only [trim, find_first_not_of, find_last_not_of, List.drop_zero, h1, h2, substr]
      rw [if_neg (by omega), hdrop, strip, ← take_sub_eq_rdropWhile]
      simp only [List.length_reverse] at hlt
      congr 2
      omega

theorem strip_ne_nil (s : Str) (h : ∃ c ∈ s, is_ws c = false) : strip s ≠ [] := by
  intro hs
  unfold strip at hs
  rw [List.rdropWhile_eq_nil_iff] at hs
  obtain ⟨c, t, hd, hc⟩ := dropWhile_head_of_exists is_ws s h
  have := hs c (by simp [hd])
  rw [hc] at this
  exact absurd this (by decide)

theorem strip_subset (s : Str) : ∀ c ∈ strip s, c ∈ s := by
  intro c hc
  unfold strip at hc
  exact (List.dropWhile_sublist _).subset ((List.rdropWhile_prefix _ _).subset hc)

theorem runs_cons_delim (p : Char → Bool) (c : Char) (cs : Str) (h : p c = true) :
    ((c :: cs).splitOnP p).filter (fun f => !f.isEmpty) =
      (cs.splitOnP p).filter (fun f => !f.isEmpty) := by
  simp only [List.splitOnP_cons, h, if_true]
  rfl

theorem runs_dropWhile (p : Char → Bool) (l : Str) :
    ((l.dropWhile p).splitOnP p).filter (fun f => !f.isEmpty) =
      (l.splitOnP p).filter (fun f => !f.isEmpty) := by
  induction l with
  | nil => rfl
  | cons c cs ih =>
    by_cases h : p c = true
    · rw [runs_cons_delim p c cs h, ← ih]
      simp only [List.dropWhile, h]
    · simp only [Bool.not_eq_true] at h
      simp only [List.dropWhile, h]

theorem runs_run (p : Char → Bool) (c : Char) (t : Str) (h : p c = false) :
    ((c :: t).splitOnP p).filter (fun f => !f.isEmpty) =
      (c :: t).takeWhile (fun x => !p x) ::
        (((c :: t).dropWhile (fun x => !p x)).splitOnP p).filter (fun f => !f.isEmpty) := by
  have hrun : ∀ x ∈ (c :: t).takeWhile (fun x => !p x), ¬ p x = true := by
    intro x hx
    have := List.mem_takeWhile_imp hx
    simpa using this
  have hhead : (c :: t).takeWhile (fun x => !p x) = c :: t.takeWhile (fun x => !p x) := by
    simp [List.takeWhile, h]
  cases hrest : (c :: t).dropWhile (fun x => !p x) with
  | nil =>
    have hall : (c :: t).takeWhile (fun x => !p x) = c :: t := by
      have := List.takeWhile_append_dropWhile (fun x => !p x) (c :: t)
      rw [hrest, List.append_nil] at this
      exact this
    rw [hall] at hrun
    rw [hall, List.splitOnP_eq_single p (c :: t) hrun]
    rfl
  | cons sep as =>
    have hsep : p sep = true := by
      have := List.head_dropWhile_not (fun x => !p x) (c :: t) (by rw [hrest]; simp)
      simp only [hrest, List.head_cons] at this
      simpa using this
    have hsplit : c :: t = (c :: t).takeWhile (fun x => !p x) ++ sep :: as := by
      rw [← hrest, List.takeWhile_append_dropWhile]
    rw [runs_cons_delim p sep as hsep]
    conv_lhs => rw [hsplit]
    rw [List.splitOnP_first p _ hrun sep hsep, hhead]
    rfl

theorem maximal_runs_nil (d : Str) : maximal_runs d [] = [] := rfl

theorem maximal_runs_cons_delim (d : Str) (c : Char) (cs : Str) (h : d.contains c = true) :
    maximal_runs d (c :: cs) = maximal_runs d cs :=
  runs_cons_delim (fun c => d.contains c) c cs h

theorem maximal_runs_dropWhile (d l : Str) :
    maximal_runs d (l.dropWhile (fun c => d.contains c)) = maximal_runs d l :=
  runs_dropWhile (fun c => d.contains c) l

theorem maximal_runs_run (d : Str) (c : Char) (t : Str) (h : d.contains c = false) :
    maximal_runs d (c :: t) =
      (c :: t).takeWhile (fun x => !d.contains x) ::
        maximal_runs d ((c :: t).dropWhile (fun x => !d.contains x)) :=
  runs_run (fun c => d.contains c) c t h

/-- The loop of `split_by_any_of`, started at `stop` with more fuel than
characters left, returns `result` followed by the trimmed maximal runs of the
text from `stop` on, and fails exactly when `trim` fails on one of them. -/
theorem split_loop_spec (str pattern : Str) :
    ∀ (fuel stop : Nat) (result : List Str), (str.drop stop).length < fuel →
      split_loop str pattern fuel stop result =
        match trim_all (maximal_runs pattern (str.drop stop)) with
        | .ok ts => .ok (result ++ ts)
        | .error e => .error e := by
  intro fuel
  induction fuel with
  | zero => intro stop result h; omega
  | succ fuel ih =>
    intro stop result hfuel
    unfold split_loop
    cases h1 : find_first_not_of str pattern stop with
    | none =>
      unfold find_first_not_of at h1
      rw [scan_none_iff] at h1
      have hall : (str.drop stop).dropWhile (fun c => pattern.contains c) = [] := by
        rw [List.dropWhile_eq_nil_iff]
        intro x hx
        have := h1 x hx
        cases hw : pattern.contains x
        · rw [hw] at this; exact absurd this (by decide)
        · rfl
      rw [← maximal_runs_dropWhile, hall, maximal_runs_nil]
      simp [trim_all]
    | some start =>
      dsimp only
      unfold find_first_not_of at h1
      obtain ⟨hs, c, t, hd, hc⟩ := scan_some _ _ _ _ h1
      simp only [not_not_fun] at hs hd
      have hc' : pattern.contains c = false := by
        cases hw : pattern.contains c
        · rfl
        · rw [hw] at hc; exact absurd hc (by decide)
      have hdrop : str.drop start = c :: t := by
        rw [hs, ← List.drop_drop, drop_length_takeWhile, hd]
      have hstart : start < str.length := by
        by_contra hcon
        rw [List.drop_eq_nil_of_le (by omega)] at hdrop
        exact absurd hdrop (by simp)
      have hlen : (c :: t).length ≤ (str.drop stop).length := by
        rw [← hd]
        exact (List.dropWhile_sublist _).length_le
      rw [← maximal_runs_dropWhile, hd, maximal_runs_run pattern c t hc']
      cases h2 : find_first_of str pattern start with
      | none =>
        unfold find_first_of at h2
        rw [hdrop, scan_none_iff] at h2
        have hall : (c :: t).takeWhile (fun x => !pattern.contains x) = c :: t := by
          rw [List.takeWhile_eq_self_iff]
          intro x hx
          show (!pattern.contains x) = true
          rw [h2 x hx]; rfl
        have hnone : (c :: t).dropWhile (fun x => !pattern.contains x) = [] := by
          rw [List.dropWhile_eq_nil_iff]
          intro x hx
          show (!pattern.contains x) = true
          rw [h2 x hx]; rfl
        simp only [substr_from, if_neg (show ¬ start > str.length by omega), hdrop, hall, hnone,
          maximal_runs_nil, trim_all]
        cases trim (c :: t) <;> rfl
      | some stop' =>
        unfold find_first_of at h2
        rw [hdrop] at h2
        obtain ⟨hs2, sep, as, hd2, -⟩ := scan_some _ _ _ _ h2
        have hpiece : (str.drop start).take (stop' - start) =
            (c :: t).takeWhile (fun x => !pattern.contains x) := by
          rw [hdrop, hs2, Nat.add_sub_cancel_left, take_length_takeWhile]
        have hrest : str.drop stop' = (c :: t).dropWhile (fun x => !pattern.contains x) := by
          rw [hs2, ← List.drop_drop, hdrop, drop_length_takeWhile]
        have hshort : (str.drop stop').length < fuel := by
          have h3 : (str.drop stop').length < (c :: t).length := by
            rw [hrest]
            have := List.takeWhile_append_dropWhile (fun x => !pattern.contains x) (c :: t)
            have hl := congrArg List.length this
            rw [List.length_append] at hl
            have hpos : 0 < ((c :: t).takeWhile (fun x => !pattern.contains x)).length := by
              rw [List.takeWhile_cons_of_pos (by show (!pattern.contains c) = true; rw [hc']; rfl)]
              exact Nat.succ_pos _
            omega
          omega
        simp only [substr, if_neg (show ¬ start > str.length by omega), hpiece, trim_all]
        rw [← hrest]
        cases trim ((c :: t).takeWhile (fun x => !pattern.contains x)) with
        | error e => rfl
        | ok tr =>
          simp only [ih stop' (result ++ [tr]) hshort]
          cases trim_all (maximal_runs pattern (str.drop stop')) with
          | error e => rfl
          | ok ts => simp

/-- The tokenizer never runs out of fuel: it is the trimmed maximal runs, or
the failure of `trim` on one of them. -/
theorem split_by_any_of_eq (str pattern : Str) :
    split_by_any_of str pattern = trim_all (maximal_runs pattern str) := by
  unfold split_by_any_of
  rw [split_loop_spec str pattern (str.length + 1) 0 [] (by simp)]
  rw [List.drop_zero]
  cases trim_all (maximal_runs pattern str) <;> simp

theorem trim_all_ok (l r : List Str) (h : trim_all l = .ok r) :
    r = l.map strip ∧ ∀ f ∈ l, ∃ c ∈ f, is_ws c = false := by
  induction l generalizing r with
  | nil =>
    simp only [trim_all, Except.ok.injEq] at h
    subst h
    simp
  | cons f fs ih =>
    by_cases hf : ∀ c ∈ f, is_ws c = true
    · simp [trim_all, trim_error f hf] at h
    · have hf' : ∃ c ∈ f, is_ws c = false := by
        push_neg at hf
        obtain ⟨c, hc, hw⟩ := hf
        exact ⟨c, hc, by simpa using hw⟩
      simp only [trim_all, trim_ok f hf'] at h
      cases hfs : trim_all fs with
      | error e => simp [hfs] at h
      | ok ts =>
        simp only [hfs, Except.ok.injEq] at h
        obtain ⟨h1, h2⟩ := ih ts hfs
        subst h
        refine ⟨by simp [h1], ?_⟩
        intro g hg
        rcases List.mem_cons.mp hg with rfl | hg
        · exact hf'
        · exact h2 g hg

theorem trim_all_tokens (l : List Str) (h : ∀ f ∈ l, (∃ c ∈ f, is_ws c = false) ∧ strip f = f) :
    trim_all l = .ok l := by
  induction l with
  | nil => rfl
  | cons f fs ih =>
    have hf := h f (List.mem_cons_self _ _)
    have hfs := ih (fun g hg => h g (List.mem_cons_of_mem _ hg))
    simp only [trim_all, trim_ok f hf.1, hfs, hf.2]

theorem mem_splitOnP_no_delim (p : Char → Bool) (l : Str) :
    ∀ f ∈ l.splitOnP p, ∀ c ∈ f, p c = false := by
  induction l with
  | nil => simp
  | cons x xs ih =>
    intro f hf c hc
    rw [List.splitOnP_cons] at hf
    by_cases hx : p x = true
    · simp only [hx, if_true] at hf
      rcases List.mem_cons.mp hf with rfl | hf
      · simp at hc
      · exact ih f hf c hc
    · simp only [hx] at hf
      cases hL : xs.splitOnP p with
      | nil => exact absurd hL (List.splitOnP_ne_nil p xs)
      | cons g gs =>
        rw [hL] at hf ih
        simp only [Bool.false_eq_true, if_false, List.modifyHead_cons] at hf
        rcases List.mem_cons.mp hf with rfl | hf
        · rcases List.mem_cons.mp hc with rfl | hc
          · simpa using hx
          · exact ih g (List.mem_cons_self _ _) c hc
        · exact ih f (List.mem_cons_of_mem _ hf) c hc

theorem maximal_runs_mem (d l f : Str) (hf : f ∈ maximal_runs d l) :
    f ≠ [] ∧ ∀ c ∈ f, d.contains c = false := by
  unfold maximal_runs at hf
  rw [List.mem_filter] at hf
  refine ⟨?_, fun c hc => mem_splitOnP_no_delim _ l f hf.1 c hc⟩
  intro h
  rw [h] at hf
  simp at hf

theorem strip_eq_self (t : Str) (h1 : ∀ c, t.head? = some c → is_ws c = false)
    (h2 : ∀ c, t.getLast? = some c → is_ws c = false) : strip t = t := by
  unfold strip
  have hd : t.dropWhile is_ws = t := by
    cases t with
    | nil => rfl
    | cons a as =>
      have := h1 a rfl
      simp [List.dropWhile, this]
  rw [hd, List.rdropWhile_eq_self_iff]
  intro hl
  have := h2 (t.getLast hl) (List.getLast?_eq_getLast _ hl)
  simp [this]

/-- An already-trimmed single token is returned as it is. -/
theorem split_token (d t : Str) (h : is_token d t) : split_by_any_of t d = .ok [t] := by
  obtain ⟨hne, hd, hh, hl⟩ := h
  have hruns : maximal_runs d t = [t] := by
    unfold maximal_runs
    rw [List.splitOnP_eq_single _ t (fun x hx => by
      show ¬ d.contains x = true
      rw [hd x hx]; decide)]
    cases t with
    | nil => exact absurd rfl hne
    | cons a as => rfl
  have hex : ∃ c ∈ t, is_ws c = false := by
    cases t with
    | nil => exact absurd rfl hne
    | cons a as => exact ⟨a, List.mem_cons_self _ _, hh a rfl⟩
  rw [split_by_any_of_eq, hruns]
  exact trim_all_tokens [t] (fun f hf => by
    rw [List.mem_singleton] at hf
    subst hf
    exact ⟨hex, strip_eq_self f hh hl⟩)

theorem strip_is_token (d f : Str) (hf : ∀ c ∈ f, d.contains c = false)
    (hex : ∃ c ∈ f, is_ws c = false) : is_token d (strip f) := by
  refine ⟨strip_ne_nil f hex, fun c hc => hf c (strip_subset f c hc), ?_, ?_⟩
  · intro c hc
    obtain ⟨a, t, hd, ha⟩ := dropWhile_head_of_exists is_ws f hex
    have hpre : strip f <+: a :: t := by
      unfold strip; rw [← hd]; exact List.rdropWhile_prefix _ _
    have hne := strip_ne_nil f hex
    cases hs : strip f with
    | nil => exact absurd hs hne
    | cons b bs =>
      rw [hs] at hc hpre
      simp only [List.head?_cons, Option.some.injEq] at hc
      obtain ⟨u, hu⟩ := hpre
      simp only [List.cons_append, List.cons.injEq] at hu
      rw [← hc, hu.1]
      exact ha
  · intro c hc
    have hne := strip_ne_nil f hex
    have hlast : (strip f).getLast hne = c := by
      have := List.getLast?_eq_getLast _ hne
      rw [this] at hc
      exact Option.some.inj hc
    have := List.rdropWhile_last_not is_ws (f.dropWhile is_ws) hne
    change ¬ is_ws ((strip f).getLast hne) = true at this
    rw [hlast] at this
    simpa using this

/-- C6.  The tokenizer is not total: asked to split the one-character text
`" "` at `|`, it calls `trim` on a fragment made of a space only, where
`substr(npos, 1)` throws `std::out_of_range`. -/
theorem split_by_any_of_space_throws :
    split_by_any_of " ".toList "|".toList = .error .out_of_range := by
  decide

/-- C7.  Whenever the tokenizer returns, its result is the list of the maximal
runs of non-delimiter characters of the text, in order, each stripped of
leading and trailing spaces and tabs; every element is non-empty and has no
delimiter character; and the result is empty when the text has nothing but
delimiter characters (the empty text included). -/
theorem split_by_any_of_spec (text pattern : Str) (r : List Str)
    (h : split_by_any_of text pattern = .ok r) :
    r = (maximal_runs pattern text).map strip ∧
      (∀ x ∈ r, x ≠ [] ∧ ∀ c ∈ x, pattern.contains c = false) ∧
      ((∀ c ∈ text, pattern.contains c = true) → r = []) := by
  rw [split_by_any_of_eq] at h
  obtain ⟨h1, h2⟩ := trim_all_ok _ _ h
  refine ⟨h1, ?_, ?_⟩
  · intro x hx
    rw [h1, List.mem_map] at hx
    obtain ⟨f, hf, rfl⟩ := hx
    have hm := maximal_runs_mem pattern text f hf
    exact ⟨strip_ne_nil f (h2 f hf), fun c hc => hm.2 c (strip_subset f c hc)⟩
  · intro hall
    have hd : text.dropWhile (fun c => pattern.contains c) = [] := by
      rw [List.dropWhile_eq_nil_iff]
      exact hall
    rw [h1, ← maximal_runs_dropWhile, hd, maximal_runs_nil]
    rfl

/-- Witness of C7: `split("", " ") = []` and
`split("  a  b ", " ") = ["a", "b"]`. -/
theorem split_by_any_of_spec_witness :
    split_by_any_of [] " ".toList = .ok [] ∧
      split_by_any_of "  a  b ".toList " ".toList = .ok ["a".toList, "b".toList] ∧
      (["a".toList, "b".toList] = (maximal_runs " ".toList "  a  b ".toList).map strip ∧
        (∀ x ∈ ["a".toList, "b".toList], x ≠ [] ∧ ∀ c ∈ x, " ".toList.contains c = false) ∧
        ((∀ c ∈ "  a  b ".toList, " ".toList.contains c = true) →
          ["a".toList, "b".toList] = [])) :=
  ⟨by decide, by decide,
    split_by_any_of_spec "  a  b ".toList " ".toList ["a".toList, "b".toList] (by decide)⟩

/-- C8.  Splitting is idempotent on single tokens: every element of a result
of the tokenizer is an already-trimmed single token (non-empty, without a
delimiter character, without a leading or trailing space or tab), and is split,
with the same delimiters, into itself alone. -/
theorem split_by_any_of_idempotent (text d : Str) (r : List Str)
    (h : split_by_any_of text d = .ok r) (x : Str) (hx : x ∈ r) :
    is_token d x ∧ split_by_any_of x d = .ok [x] := by
  rw [split_by_any_of_eq] at h
  obtain ⟨h1, h2⟩ := trim_all_ok _ _ h
  rw [h1, List.mem_map] at hx
  obtain ⟨f, hf, rfl⟩ := hx
  have ht := strip_is_token d f (maximal_runs_mem d text f hf).2 (h2 f hf)
  exact ⟨ht, split_token d (strip f) ht⟩

/-- Witness of C8: `"b"` is an element of `split(" a | b ", "|")`. -/
theorem split_by_any_of_idempotent_witness :
    split_by_any_of " a | b ".toList "|".toList = .ok ["a".toList, "b".toList] ∧
      "b".toList ∈ ["a".toList, "b".toList] ∧
      is_token "|".toList "b".toList ∧
      split_by_any_of "b".toList "|".toList = .ok ["b".toList] :=
  ⟨by decide, by decide,
    split_by_any_of_idempotent " a | b ".toList "|".toList ["a".toList, "b".toList]
      (by decide) "b".toList (by decide)⟩

/-- C9.  The stage list can be empty: the empty line and a line of `|` only
are split into no stage at all, and `execute_line` then reads
`command[command.size() - 1]` of an empty vector. -/
theorem parse_line_no_stage :
    split_by_any_of [] "|".toList = .ok [] ∧ parse_line [] = .error .undefined ∧
      split_by_any_of "||".toList "|".toList = .ok [] ∧
      parse_line "||".toList = .error .undefined := by
  decide

/-! ## The dispatcher and the pipeline executor -/

/-- One stage signals "stop" exactly when its first token is `exit`. -/
theorem execute_command_flag {σ : Type} (env : Env σ) (c data : Str) (st : σ)
    (r : Bool × Str × σ) (h : execute_command env c data st = .ok r) :
    r.1 = false ↔ ∃ rest, split_by_any_of c WHITESPACES = .ok ("exit".toList :: rest) := by
  unfold execute_command at h
  cases hs : split_by_any_of c WHITESPACES with
  | error e => rw [hs] at h; exact absurd h (by simp)
  | ok token =>
    rw [hs] at h
    cases token with
    | nil => exact absurd h (by simp)
    | cons t0 rest =>
      simp only [List.head?_cons] at h
      by_cases hexit : t0 = "exit".toList
      · simp only [hexit, if_true, Except.ok.injEq] at h
        subst h
        simp [hexit]
      · have hr : r.1 = true := by
          simp only [hexit, if_false] at h
          split_ifs at h
          · split at h
            · exact absurd h (by simp)
            · simp only [Except.ok.injEq] at h; rw [← h]
          · split at h
            · exact absurd h (by simp)
            · simp only [Except.ok.injEq] at h; rw [← h]
          · simp only [Except.ok.injEq] at h; rw [← h]
          · split at h
            · exact absurd h (by simp)
            · simp only [Except.ok.injEq] at h; rw [← h]
        rw [hr]
        constructor
        · intro hf; exact absurd hf (by decide)
        · rintro ⟨rest', hrest⟩
          simp only [Except.ok.injEq, List.cons.injEq] at hrest
          exact absurd hrest.1 hexit

/-- The stage loop started with `result = true`: when it returns, the flag is
false exactly when some stage has `exit` as its first token. -/
theorem run_stages_flag {σ : Type} (env : Env σ) (cs : List Str) (data : Str) (st : σ)
    (r : Bool × Str × σ) (h : run_stages env cs true data st = .ok r) :
    r.1 = false ↔
      ∃ c ∈ cs, ∃ rest, split_by_any_of c WHITESPACES = .ok ("exit".toList :: rest) := by
  induction cs generalizing data st with
  | nil =>
    simp only [run_stages, Except.ok.injEq] at h
    subst h
    simp
  | cons c cs ih =>
    simp only [run_stages, if_true] at h
    cases hc : execute_command env c data st with
    | error e => rw [hc] at h; exact absurd h (by simp)
    | ok rc =>
      rw [hc] at h
      dsimp only at h
      have hflag := execute_command_flag env c data st rc hc
      cases hb : rc.1 with
      | false =>
        rw [hb] at h
        cases cs with
        | nil =>
          simp only [run_stages, Except.ok.injEq] at h
          subst h
          simp only [true_iff]
          exact ⟨c, List.mem_cons_self _ _, hflag.mp hb⟩
        | cons c' cs' =>
          simp only [run_stages, Bool.false_eq_true, if_false, Except.ok.injEq] at h
          subst h
          simp only [true_iff]
          exact ⟨c, List.mem_cons_self _ _, hflag.mp hb⟩
      | true =>
        rw [hb] at h
        have := ih rc.2.1 rc.2.2 h
        rw [this]
        constructor
        · rintro ⟨c', hc', hex⟩
          exact ⟨c', List.mem_cons_of_mem _ hc', hex⟩
        · rintro ⟨c', hc', hex⟩
          rcases List.mem_cons.mp hc' with rfl | hc'
          · have := hflag.mpr hex
            rw [hb] at this
            exact absurd this (by decide)
          · exact ⟨c', hc', hex⟩

/-- C10.  Whenever `execute_line` returns, the line was parsed into a stage
list (redirection already taken out of the last stage), and the returned flag
is false exactly when some stage of that list has `exit` as its first token
when tokenized at spaces and tabs; otherwise it is true. -/
theorem execute_line_flag {σ : Type} (env : Env σ) (line : Str) (st st' : σ) (b : Bool)
    (h : execute_line env line st = .ok (b, st')) :
    ∃ command file, parse_line line = .ok (command, file) ∧
      (b = false ↔
        ∃ c ∈ command, ∃ rest,
          split_by_any_of c WHITESPACES = .ok ("exit".toList :: rest)) := by
  unfold execute_line at h
  cases hp : parse_line line with
  | error e => rw [hp] at h; exact absurd h (by simp)
  | ok pr =>
    obtain ⟨command, file⟩ := pr
    rw [hp] at h
    refine ⟨command, file, rfl, ?_⟩
    simp only at h
    cases hr : run_stages env command true [] st with
    | error e => rw [hr] at h; exact absurd h (by simp)
    | ok r =>
      rw [hr] at h
      have hflag := run_stages_flag env command [] st r hr
      have hb : r.1 = b := by
        split_ifs at h <;> simp only [Except.ok.injEq, Prod.mk.injEq] at h <;> exact h.1
      rw [← hb]
      exact hflag

/-- Witness of C10: `cat | exit > out` returns false, its second stage being
`exit`. -/
theorem execute_line_flag_witness :
    execute_line idle_env "cat | exit > out".toList () = .ok (false, ()) ∧
      ∃ command file, parse_line "cat | exit > out".toList = .ok (command, file) ∧
        (false = false ↔
          ∃ c ∈ command, ∃ rest,
            split_by_any_of c WHITESPACES = .ok ("exit".toList :: rest)) :=
  ⟨by decide, execute_line_flag idle_env "cat | exit > out".toList () () false (by decide)⟩

/-! ## `tail` on the pipeline buffer -/

theorem to_int_to_size_t (x : Int) (h1 : -(2 : Int) ^ 31 ≤ x) (h2 : x < 2 ^ 31) :
    to_int ((to_size_t x : Nat) : Int) = x := by
  unfold to_int to_size_t
  have h3 : (0 : Int) ≤ x % 2 ^ 64 := Int.emod_nonneg _ (by norm_num)
  rw [Int.toNat_of_nonneg h3]
  omega

theorem to_size_t_of_nonneg (x : Int) (h1 : 0 ≤ x) (h2 : x < 2 ^ 31) :
    to_size_t x = x.toNat := by
  unfold to_size_t
  congr 1
  omega

theorem atoi_range (tok : Str) (N : Int) (h : atoi tok = .ok N) :
    -(2 : Int) ^ 31 ≤ N ∧ N < 2 ^ 31 := by
  unfold atoi at h
  simp only [Except.ok.injEq] at h
  rw [← h]
  unfold to_int
  omega

theorem append_rows_eq (data : Str) (ts : List Str) :
    append_rows data ts = data ++ unlines ts := by
  induction ts generalizing data with
  | nil => simp [append_rows, unlines]
  | cons t ts ih =>
    have : append_rows data (t :: ts) = append_rows (data ++ (t ++ ['\n'])) ts := rfl
    rw [this, ih]
    simp [unlines]

/-- Line mode on the buffer, for a count in `[0, 2^31)` and a row count that
exceeds it by less than `2^31`: the last `min(count, k)` rows. -/
theorem tail_buffer_lines_spec (count : Int) (data : Str) (ts : List Str)
    (hsplit : split_by_any_of data ['\n'] = .ok ts) (h0 : 0 ≤ count) (h1 : count < 2 ^ 31)
    (h2 : (ts.length : Int) - count < 2 ^ 31) :
    tail_buffer_lines count data = .ok (unlines (last_rows count.toNat ts)) := by
  unfold tail_buffer_lines last_rows
  rw [hsplit]
  simp only
  rw [to_int_to_size_t _ (by omega) h2, append_rows_eq, List.nil_append]
  congr 3
  split_ifs with hneg
  · rw [to_size_t_of_nonneg 0 (by omega) (by norm_num)]
    omega
  · rw [to_size_t_of_nonneg _ (by omega) h2]
    omega

theorem last_rows_zero (ts : List Str) : last_rows 0 ts = [] := by
  simp [last_rows]

theorem last_rows_all (n : Nat) (ts : List Str) (h : ts.length ≤ n) : last_rows n ts = ts := by
  have : ts.length - min n ts.length = 0 := by omega
  simp [last_rows, this]

theorem tail_args_n (tok : Str) :
    tail_args ["-n".toList, tok] TailOpts.init =
      match atoi tok with
      | .error e => .error e
      | .ok n => .ok ⟨true, 1, n, []⟩ := rfl

theorem tail_args_lines (tok : Str) :
    tail_args ["--lines=".toList ++ tok] TailOpts.init =
      match atoi tok with
      | .error e => .error e
      | .ok n => .ok ⟨true, 1, n, []⟩ := rfl

theorem command_tail_buffer_lines {σ : Type} (env : Env σ) (st : σ) (arg : List Str)
    (data : Str) (o : TailOpts) (h : tail_args (arg.drop 1) TailOpts.init = .ok o)
    (hl : o.lines = true) (hf : o.files = []) :
    command_tail env st arg data = tail_buffer_lines o.count data := by
  unfold command_tail
  rw [h]
  simp [hl, hf]

/-- Rows that are already-trimmed tokens for the newline are what the
tokenizer finds in their `unlines`. -/
theorem split_unlines (ls : List Str) (h : ∀ l ∈ ls, is_token ['\n'] l) :
    split_by_any_of (unlines ls) ['\n'] = .ok ls := by
  have hruns : maximal_runs ['\n'] (unlines ls) = ls := by
    induction ls with
    | nil => rfl
    | cons l ls ih =>
      obtain ⟨hne, hd, -, -⟩ := h l (List.mem_cons_self _ _)
      have hl : unlines (l :: ls) = l ++ '\n' :: unlines ls := by
        simp [unlines]
      have hno : ∀ x ∈ l, ¬ (fun c => ['\n'].contains c) x = true := by
        intro x hx
        show ¬ ['\n'].contains x = true
        rw [hd x hx]; decide
      have := ih (fun g hg => h g (List.mem_cons_of_mem _ hg))
      unfold maximal_runs at this ⊢
      rw [hl, List.splitOnP_first _ l hno '\n' (by decide), List.filter_cons_of_pos, this]
      cases l with
      | nil => exact absurd rfl hne
      | cons a as => rfl
  rw [split_by_any_of_eq, hruns]
  apply trim_all_tokens
  intro f hf
  obtain ⟨hne, -, hh, hl⟩ := h f hf
  refine ⟨?_, strip_eq_self f hh hl⟩
  cases f with
  | nil => exact absurd rfl hne
  | cons a as => exact ⟨a, List.mem_cons_self _ _, hh a rfl⟩

theorem unlines_replicate_ne_nil (n : Nat) (hn : 0 < n) (l : Str) :
    unlines (List.replicate n l) ≠ [] := by
  cases n with
  | zero => omega
  | succ m => simp [unlines, List.replicate_succ]

/-- Line mode with count `0` on `n = 2^31` rows `a`: the `int` that receives
`tail.size() - count` is negative, `start` is reset to `0`, and every row is
kept. -/
theorem tail_buffer_lines_wraps (n : Nat) (hn : (n : Int) = 2 ^ 31) :
    split_by_any_of (unlines (List.replicate n ['a'])) ['\n'] = .ok (List.replicate n ['a']) ∧
      tail_buffer_lines 0 (unlines (List.replicate n ['a'])) =
        .ok (unlines (List.replicate n ['a'])) := by
  have htok : ∀ l ∈ List.replicate n ['a'], is_token ['\n'] l := by
    intro l hl
    rw [List.eq_of_mem_replicate hl]
    exact ⟨by decide, by decide, by decide, by decide⟩
  have hsplit := split_unlines _ htok
  refine ⟨hsplit, ?_⟩
  unfold tail_buffer_lines
  rw [hsplit]
  simp only [List.length_replicate, sub_zero]
  have hstart : to_int ((to_size_t (n : Int) : Nat) : Int) = -2 ^ 31 := by
    rw [hn]; decide
  rw [hstart]
  have hzero : to_size_t (if (-2 ^ 31 : Int) < 0 then 0 else -2 ^ 31) = 0 := by decide
  rw [hzero, List.drop_zero, append_rows_eq, List.nil_append]

theorem big_buffer_split :
    split_by_any_of big_buffer ['\n'] = .ok (List.replicate (2 ^ 31) ['a']) :=
  (tail_buffer_lines_wraps (2 ^ 31) (by norm_num)).1

theorem big_buffer_tail : tail_buffer_lines 0 big_buffer = .ok big_buffer :=
  (tail_buffer_lines_wraps (2 ^ 31) (by norm_num)).2

theorem big_buffer_ne_nil : big_buffer ≠ [] :=
  unlines_replicate_ne_nil (2 ^ 31) (by norm_num) ['a']

/-! ### The claims on `tail` -/

/-- C1.  Byte mode on the buffer keeps one byte more than asked: `tail -c 3`
and `tail --bytes=3` on the buffer `"hello"` give the four bytes `"ello"`, not
the last three bytes `"llo"`, because `start` is `length - count - 1`. -/
theorem tail_bytes_keeps_one_more {σ : Type} (env : Env σ) (st : σ) :
    command_tail env st ["tail".toList, "-c".toList, "3".toList] "hello".toList =
        .ok "ello".toList ∧
      command_tail env st ["tail".toList, "--bytes=3".toList] "hello".toList =
        .ok "ello".toList :=
  ⟨rfl, rfl⟩

/-- C4, as the code has it.  `tail -n N` returns the buffer unchanged, byte for
byte, when the buffer is made of `k ≤ N` newline-terminated rows each of which
is non-empty and has no leading or trailing space or tab, `N` being the value
`atoi` reads in the count argument. -/
theorem tail_lines_unchanged {σ : Type} (env : Env σ) (st : σ) (tok : Str) (N : Int)
    (ls : List Str) (hN : atoi tok = .ok N) (hls : ∀ l ∈ ls, is_token ['\n'] l)
    (hk : (ls.length : Int) ≤ N) :
    command_tail env st ["tail".toList, "-n".toList, tok] (unlines ls) = .ok (unlines ls) := by
  have hargs : tail_args (["tail".toList, "-n".toList, tok].drop 1) TailOpts.init =
      .ok ⟨true, 1, N, []⟩ := by
    show tail_args ["-n".toList, tok] TailOpts.init = _
    rw [tail_args_n, hN]
  obtain ⟨hlo, hhi⟩ := atoi_range tok N hN
  rw [command_tail_buffer_lines env st _ _ _ hargs rfl rfl]
  rw [tail_buffer_lines_spec N (unlines ls) ls (split_unlines ls hls) (by omega) hhi (by omega)]
  rw [last_rows_all _ _ (by omega)]

/-- Witness of C4 as amended: `tail -n 10` on the three rows `a`, `b`, `c`. -/
theorem tail_lines_unchanged_witness :
    atoi "10".toList = .ok 10 ∧
      (∀ l ∈ ["a".toList, "b".toList, "c".toList], is_token ['\n'] l) ∧
      command_tail idle_env () ["tail".toList, "-n".toList, "10".toList]
        (unlines ["a".toList, "b".toList, "c".toList]) =
        .ok (unlines ["a".toList, "b".toList, "c".toList]) :=
  have h1 : atoi "10".toList = .ok 10 := by decide
  have h2 : ∀ l ∈ ["a".toList, "b".toList, "c".toList], is_token ['\n'] l := by
    intro l hl
    simp only [List.mem_cons, List.mem_singleton, List.not_mem_nil, or_false] at hl
    rcases hl with rfl | rfl | rfl <;>
      exact ⟨by decide, by decide, by decide, by decide⟩
  ⟨h1, h2, tail_lines_unchanged idle_env () "10".toList 10 _ h1 h2 (by decide)⟩

/-- Counterexample to C4 as stated: with `N = 10`, a three-row buffer with an
empty row comes back without it, and a one-row buffer whose row starts with a
space comes back without the space. -/
theorem tail_lines_changes_buffer :
    command_tail idle_env () ["tail".toList, "-n".toList, "10".toList] "a\n\nb\n".toList =
        .ok "a\nb\n".toList ∧
      "a\nb\n".toList ≠ "a\n\nb\n".toList ∧
      command_tail idle_env () ["tail".toList, "-n".toList, "10".toList] " a\n".toList =
        .ok "a\n".toList ∧
      "a\n".toList ≠ " a\n".toList := by
  decide

/-- C5, as the code has it.  In line mode with no file argument (`-n N`,
`--lines=N` with `N` the `int` that `atoi` reads in the count argument, or no
flag and `N = 10`), for `N ≥ 0` and a buffer that the tokenizer splits at
newlines into `k` elements with `k - N < 2^31`, `tail` returns and replaces the
buffer with the last `min(N, k)` of those elements, in order, each followed by
one newline. -/
theorem tail_lines_spec {σ : Type} (env : Env σ) (st : σ) (arg : List Str) (tok data : Str)
    (N : Int) (ts : List Str)
    (harg : (atoi tok = .ok N ∧
        (arg = ["tail".toList, "-n".toList, tok] ∨
          arg = ["tail".toList, "--lines=".toList ++ tok])) ∨
      (N = 10 ∧ arg = ["tail".toList]))
    (hN : 0 ≤ N) (hsplit : split_by_any_of data ['\n'] = .ok ts)
    (hsize : (ts.length : Int) - N < 2 ^ 31) :
    command_tail env st arg data = .ok (unlines (last_rows N.toNat ts)) := by
  have hargs : tail_args (arg.drop 1) TailOpts.init = .ok ⟨true, 1, N, []⟩ ∧ N < 2 ^ 31 := by
    rcases harg with ⟨hat, rfl | rfl⟩ | ⟨rfl, rfl⟩
    · refine ⟨?_, (atoi_range tok N hat).2⟩
      show tail_args ["-n".toList, tok] TailOpts.init = _
      rw [tail_args_n, hat]
    · refine ⟨?_, (atoi_range tok N hat).2⟩
      show tail_args ["--lines=".toList ++ tok] TailOpts.init = _
      rw [tail_args_lines, hat]
    · exact ⟨rfl, by norm_num⟩
  rw [command_tail_buffer_lines env st _ _ _ hargs.1 rfl rfl]
  exact tail_buffer_lines_spec N data ts hsplit hN hargs.2 hsize

/-- Witness of C5 as amended: `tail -n 2` on `"a\nb\nc\n"` gives `"b\nc\n"`. -/
theorem tail_lines_spec_witness :
    split_by_any_of "a\nb\nc\n".toList ['\n'] = .ok ["a".toList, "b".toList, "c".toList] ∧
      command_tail idle_env () ["tail".toList, "-n".toList, "2".toList] "a\nb\nc\n".toList =
        .ok (unlines (last_rows (2 : Int).toNat ["a".toList, "b".toList, "c".toList])) ∧
      unlines (last_rows (2 : Int).toNat ["a".toList, "b".toList, "c".toList]) =
        "b\nc\n".toList :=
  ⟨by decide,
    tail_lines_spec idle_env () ["tail".toList, "-n".toList, "2".toList] "2".toList
      "a\nb\nc\n".toList 2 ["a".toList, "b".toList, "c".toList]
      (Or.inl ⟨by decide, Or.inl rfl⟩) (by decide) (by decide) (by decide),
    by decide⟩

/-- Counterexample to C5 as stated, in two places.  On a buffer of `2^31`
rows, which the tokenizer splits into `k = 2^31` elements, `tail -n 0` returns
the whole buffer, not the last `min(0, k) = 0` elements.  And with the count
`4294967297`, which `atoi` reads as `1`, `tail` on the rows `a`, `b` returns the
row `b`, not the last `min(4294967297, 2) = 2` rows. -/
theorem tail_lines_overflow :
    (split_by_any_of big_buffer ['\n'] = .ok (List.replicate (2 ^ 31) ['a']) ∧
      command_tail idle_env () ["tail".toList, "-n".toList, "0".toList] big_buffer =
        .ok big_buffer ∧
      big_buffer ≠ unlines (last_rows (0 : Int).toNat (List.replicate (2 ^ 31) ['a']))) ∧
    (split_by_any_of "a\nb\n".toList ['\n'] = .ok ["a".toList, "b".toList] ∧
      command_tail idle_env () ["tail".toList, "-n".toList, "4294967297".toList]
        "a\nb\n".toList = .ok "b\n".toList ∧
      "b\n".toList ≠ unlines (last_rows 4294967297 ["a".toList, "b".toList])) := by
  have hargs : tail_args (["tail".toList, "-n".toList, "0".toList].drop 1) TailOpts.init =
      .ok ⟨true, 1, 0, []⟩ := by decide
  refine ⟨⟨big_buffer_split, ?_, ?_⟩, by decide, by decide, by decide⟩
  · rw [command_tail_buffer_lines idle_env () _ _ _ hargs rfl rfl]
    exact big_buffer_tail
  · have h0 : (0 : Int).toNat = 0 := rfl
    rw [h0, last_rows_zero]
    exact big_buffer_ne_nil

/-! ## `uniq` on the pipeline buffer -/

/-- C2.  `uniq -d` on the rows `a`, `a`, `b`, `b`, `c` returns the row `b`
alone: the first repeated row found only clears the flag `first` and is not
written. -/
theorem uniq_repeated_drops_first {σ : Type} (env : Env σ) (st : σ) :
    command_uniq env ["uniq".toList, "-d".toList] "a\na\nb\nb\nc\n".toList st =
      .ok ("b\n".toList, st) :=
  rfl

/-- C3.  `uniq` with no flag on the rows `a`, `a`, `b`, `a` returns the rows
`a`, `b`, `a` and then one empty row more: the loop reads an empty line after
the last newline, and that line is written after the loop. -/
theorem uniq_default_extra_row {σ : Type} (env : Env σ) (st : σ) :
    command_uniq env ["uniq".toList] "a\na\nb\na\n".toList st =
      .ok ("a\nb\na\n\n".toList, st) :=
  rfl

/-! ## `string_equal` -/

theorem foldl_early_exit (cmp : Nat → Bool) (l : List Nat) (b : Bool) :
    l.foldl (fun result idx => if result then cmp idx else result) b = (b && l.all cmp) := by
  induction l generalizing b with
  | nil => simp
  | cons i l ih =>
    rw [List.foldl_cons, ih]
    cases b
    · simp
    · simp

/-- C16.  With `ignore_case` set, `string_equal` holds exactly when the two
strings have the same length and agree at every position after `tolower`;
without it, exactly when they are equal.  `"Foo"` and `"foo"` are equal with
`ignore_case` and different without. -/
theorem string_equal_spec (l r : Str) :
    (string_equal l r true = true ↔
        l.length = r.length ∧
          ∀ i, i < l.length → tolower (l.getD i '\x00') = tolower (r.getD i '\x00')) ∧
      (string_equal l r false = true ↔ l = r) ∧
      string_equal "Foo".toList "foo".toList true = true ∧
      string_equal "Foo".toList "foo".toList false = false := by
  refine ⟨?_, ?_, by decide, by decide⟩
  · unfold string_equal
    simp only [if_true]
    rw [foldl_early_exit (fun idx => tolower (l.getD idx '\x00') == tolower (r.getD idx '\x00'))]
    simp [List.all_eq_true, List.mem_range]
  · simp [string_equal]

/-! ## Stages and their tokens -/

theorem split_elements_token (text d : Str) (r : List Str)
    (h : split_by_any_of text d = .ok r) : ∀ x ∈ r, is_token d x := by
  intro x hx
  rw [split_by_any_of_eq] at h
  obtain ⟨h1, h2⟩ := trim_all_ok _ _ h
  rw [h1, List.mem_map] at hx
  obtain ⟨f, hf, rfl⟩ := hx
  exact strip_is_token d f (maximal_runs_mem d text f hf).2 (h2 f hf)

theorem strip_no_ws (f : Str) (h : ∀ c ∈ f, is_ws c = false) : strip f = f := by
  apply strip_eq_self
  · intro c hc
    obtain ⟨ys, rfl⟩ := List.head?_eq_some_iff.mp hc
    exact h c (List.mem_cons_self _ _)
  · intro c hc
    obtain ⟨ys, rfl⟩ := List.getLast?_eq_some_iff.mp hc
    exact h c (by simp)

/-- At spaces and tabs the tokenizer always returns: no fragment between
delimiters can be made of spaces and tabs only. -/
theorem split_ws (c : Str) :
    split_by_any_of c WHITESPACES = .ok (maximal_runs WHITESPACES c) := by
  rw [split_by_any_of_eq]
  apply trim_all_tokens
  intro f hf
  obtain ⟨hne, hno⟩ := maximal_runs_mem WHITESPACES c f hf
  have hws : ∀ x ∈ f, is_ws x = false := fun x hx => hno x hx
  refine ⟨?_, strip_no_ws f hws⟩
  cases f with
  | nil => exact absurd rfl hne
  | cons a as => exact ⟨a, List.mem_cons_self _ _, hws a (List.mem_cons_self _ _)⟩

theorem maximal_runs_ne_nil (d l : Str) (h : ∃ c ∈ l, d.contains c = false) :
    maximal_runs d l ≠ [] := by
  obtain ⟨c, t, hd, hc⟩ := dropWhile_head_of_exists (fun c => d.contains c) l h
  rw [← maximal_runs_dropWhile, hd, maximal_runs_run d c t hc]
  exact List.cons_ne_nil _ _

/-- A token, for whatever delimiters, has a first space-or-tab-separated
token. -/
theorem token_has_first_token (d c : Str) (h : is_token d c) :
    ∃ t0 rest, split_by_any_of c WHITESPACES = .ok (t0 :: rest) := by
  obtain ⟨hne, -, hh, -⟩ := h
  have hex : ∃ x ∈ c, WHITESPACES.contains x = false := by
    cases c with
    | nil => exact absurd rfl hne
    | cons a as => exact ⟨a, List.mem_cons_self _ _, hh a rfl⟩
  have hruns := maximal_runs_ne_nil WHITESPACES c hex
  rw [split_ws]
  cases hm : maximal_runs WHITESPACES c with
  | nil => exact absurd hm hruns
  | cons t0 rest => exact ⟨t0, rest, rfl⟩

/-- What `parse_line` returns, read back: the stage list is the split of the
line at `|`, with its last stage replaced by the first part of its split at
`>` when that stage has a `>` and the split has two parts or more, the second
part being the target; in the other cases the stage list is unchanged and
there is no target. -/
theorem parse_line_inv (line : Str) (command' : List Str) (file : Str)
    (h : parse_line line = .ok (command', file)) :
    ∃ command last, split_by_any_of line ['|'] = .ok command ∧
      command = command.dropLast ++ [last] ∧
      ((command' = command ∧ file = [] ∧
          ((find_first_of last ['>'] 0).isSome = false ∨
            ∃ tokens, split_by_any_of last ['>'] = .ok tokens ∧ tokens.length < 2)) ∨
        (∃ t0 t1 rest, (find_first_of last ['>'] 0).isSome = true ∧
          split_by_any_of last ['>'] = .ok (t0 :: t1 :: rest) ∧
          command' = command.dropLast ++ [t0] ∧ file = t1)) := by
  unfold parse_line at h
  cases hs : split_by_any_of line ['|'] with
  | error e => rw [hs] at h; exact absurd h (by simp)
  | ok command =>
    rw [hs] at h
    dsimp only at h
    cases hl : command.getLast? with
    | none => rw [hl] at h; exact absurd h (by simp)
    | some last =>
      rw [hl] at h
      dsimp only at h
      have hcmd : command = command.dropLast ++ [last] := by
        obtain ⟨ys, hys⟩ := List.getLast?_eq_some_iff.mp hl
        rw [hys, List.dropLast_concat]
      refine ⟨command, last, rfl, hcmd, ?_⟩
      cases hf : (find_first_of last ['>'] 0).isSome with
      | false =>
        rw [hf] at h
        simp only [Bool.false_eq_true, if_false, Except.ok.injEq, Prod.mk.injEq] at h
        exact Or.inl ⟨h.1.symm, h.2.symm, Or.inl rfl⟩
      | true =>
        rw [hf] at h
        simp only [if_true] at h
        cases ht : split_by_any_of last ['>'] with
        | error e => rw [ht] at h; exact absurd h (by simp)
        | ok tokens =>
          rw [ht] at h
          dsimp only at h
          match tokens, h with
          | [], h =>
            simp only [Except.ok.injEq, Prod.mk.injEq] at h
            exact Or.inl ⟨h.1.symm, h.2.symm, Or.inr ⟨[], rfl, by simp⟩⟩
          | [t], h =>
            simp only [Except.ok.injEq, Prod.mk.injEq] at h
            exact Or.inl ⟨h.1.symm, h.2.symm, Or.inr ⟨[t], rfl, by simp⟩⟩
          | t0 :: t1 :: rest, h =>
            simp only [Except.ok.injEq, Prod.mk.injEq] at h
            exact Or.inr ⟨t0, t1, rest, rfl, rfl, h.1.symm, h.2.symm⟩

/-- C20.  Every stage of the list that `parse_line` returns, the first part of
a last stage split at `>` included, is tokenized at spaces and tabs into at
least one token, so `token[0]` in `execute_command` is defined. -/
theorem stage_has_first_token (line : Str) (command : List Str) (file : Str)
    (h : parse_line line = .ok (command, file)) (c : Str) (hc : c ∈ command) :
    ∃ t0 rest, split_by_any_of c WHITESPACES = .ok (t0 :: rest) := by
  obtain ⟨cmd, last, hs, hcmd, hcase⟩ := parse_line_inv line command file h
  have htok := split_elements_token line ['|'] cmd hs
  rcases hcase with ⟨rfl, -, -⟩ | ⟨t0, t1, rest, -, ht, rfl, -⟩
  · exact token_has_first_token ['|'] c (htok c hc)
  · rw [List.mem_append] at hc
    rcases hc with hc | hc
    · exact token_has_first_token ['|'] c (htok c (List.dropLast_subset _ hc))
    · rw [List.mem_singleton] at hc
      subst hc
      exact token_has_first_token ['>'] c
        (split_elements_token last ['>'] _ ht c (List.mem_cons_self _ _))

/-- Witness of C20: the two stages of `cat | tail -n 1 > out`. -/
theorem stage_has_first_token_witness :
    parse_line "cat | tail -n 1 > out".toList =
        .ok (["cat".toList, "tail -n 1".toList], "out".toList) ∧
      split_by_any_of "tail -n 1".toList WHITESPACES =
        .ok ["tail".toList, "-n".toList, "1".toList] ∧
      ∃ t0 rest, split_by_any_of "tail -n 1".toList WHITESPACES = .ok (t0 :: rest) :=
  ⟨by decide, by decide,
    stage_has_first_token "cat | tail -n 1 > out".toList
      ["cat".toList, "tail -n 1".toList] "out".toList (by decide) "tail -n 1".toList
      (by decide)⟩

/-! ## `exit`, `cd` and the stages after `exit` -/

theorem execute_command_exit {σ : Type} (env : Env σ) (cmd data : Str) (st : σ)
    (rest : List Str) (h : split_by_any_of cmd WHITESPACES = .ok ("exit".toList :: rest)) :
    execute_command env cmd data st = .ok (false, data, st) := by
  unfold execute_command
  rw [h]
  rfl

/-- C13.  A stage whose first token is `exit` leaves the buffer (and the
world) as it was and signals stop; a stage whose first token is `cd` leaves
the buffer as it was and signals continue, whatever its arguments and whatever
`chdir` does. -/
theorem exit_cd_keep_buffer {σ : Type} (env : Env σ) (cmd data : Str) (st : σ)
    (rest : List Str) :
    (split_by_any_of cmd WHITESPACES = .ok ("exit".toList :: rest) →
        execute_command env cmd data st = .ok (false, data, st)) ∧
      (split_by_any_of cmd WHITESPACES = .ok ("cd".toList :: rest) →
        execute_command env cmd data st =
          .ok (true, data, command_cd env ("cd".toList :: rest) st)) := by
  constructor
  · intro h
    unfold execute_command
    rw [h]
    rfl
  · intro h
    unfold execute_command
    rw [h]
    rfl

/-- Witness of C13: `exit now` and `cd /nonexistent` on the buffer `"abc"`. -/
theorem exit_cd_keep_buffer_witness :
    execute_command idle_env "exit now".toList "abc".toList () = .ok (false, "abc".toList, ()) ∧
      execute_command idle_env "cd /nonexistent".toList "abc".toList () =
        .ok (true, "abc".toList,
          command_cd idle_env ["cd".toList, "/nonexistent".toList] ()) :=
  ⟨(exit_cd_keep_buffer idle_env "exit now".toList "abc".toList () ["now".toList]).1
      (by decide),
    (exit_cd_keep_buffer idle_env "cd /nonexistent".toList "abc".toList ()
      ["/nonexistent".toList]).2 (by decide)⟩

theorem run_stages_false {σ : Type} (env : Env σ) (cs : List Str) (data : Str) (st : σ) :
    run_stages env cs false data st = .ok (false, data, st) := by
  cases cs <;> simp [run_stages]

theorem dispatched_false {σ : Type} (env : Env σ) (cs : List Str) (data : Str) (st : σ) :
    dispatched env cs false data st = [] := by
  cases cs <;> simp [dispatched]

theorem dispatched_cons_true {σ : Type} (env : Env σ) (c : Str) (cs : List Str) (data : Str)
    (st : σ) :
    dispatched env (c :: cs) true data st =
      c :: (match execute_command env c data st with
        | .error _ => []
        | .ok r => dispatched env cs r.1 r.2.1 r.2.2) := by
  simp [dispatched]

theorem run_stages_cons_true {σ : Type} (env : Env σ) (c : Str) (cs : List Str) (data : Str)
    (st : σ) :
    run_stages env (c :: cs) true data st =
      match execute_command env c data st with
      | .error e => .error e
      | .ok r => run_stages env cs r.1 r.2.1 r.2.2 := by
  simp [run_stages]

/-- The stage loop on a stage list whose first `exit` stage is `e`: the calls
of `execute_command` stop at `e` at the latest, and when the stages before `e`
complete, every one of them and `e` is called, nothing after, and the loop
ends with their buffer and world. -/
theorem run_stages_exit {σ : Type} (env : Env σ) (pre post : List Str) (e : Str)
    (rest : List Str)
    (hpre : ∀ c ∈ pre, ∀ r, split_by_any_of c WHITESPACES ≠ .ok ("exit".toList :: r))
    (he : split_by_any_of e WHITESPACES = .ok ("exit".toList :: rest))
    (data : Str) (st : σ) :
    dispatched env (pre ++ e :: post) true data st <+: pre ++ [e] ∧
      ∀ b d s, run_stages env pre true data st = .ok (b, d, s) →
        dispatched env (pre ++ e :: post) true data st = pre ++ [e] ∧
          run_stages env (pre ++ e :: post) true data st = .ok (false, d, s) := by
  induction pre generalizing data st with
  | nil =>
    have hx := execute_command_exit env e data st rest he
    rw [List.nil_append, dispatched_cons_true, run_stages_cons_true, hx]
    dsimp only
    rw [dispatched_false, run_stages_false]
    refine ⟨List.prefix_refl _, ?_⟩
    intro b d s h
    simp only [run_stages, Except.ok.injEq, Prod.mk.injEq] at h
    obtain ⟨-, h1, h2⟩ := h
    subst h1 h2
    exact ⟨rfl, rfl⟩
  | cons c pre ih =>
    have hpre' : ∀ c' ∈ pre, ∀ r, split_by_any_of c' WHITESPACES ≠ .ok ("exit".toList :: r) :=
      fun c' hc' => hpre c' (List.mem_cons_of_mem _ hc')
    rw [List.cons_append, dispatched_cons_true, run_stages_cons_true, run_stages_cons_true]
    cases hc : execute_command env c data st with
    | error err =>
      refine ⟨?_, ?_⟩
      · exact ⟨pre ++ [e], rfl⟩
      · intro b d s h
        exact absurd h (by simp)
    | ok r =>
      have hr : r.1 = true := by
        cases hb : r.1 with
        | true => rfl
        | false =>
          obtain ⟨r', hr'⟩ := (execute_command_flag env c data st r hc).mp hb
          exact absurd hr' (hpre c (List.mem_cons_self _ _) r')
      dsimp only
      rw [hr]
      obtain ⟨h1, h2⟩ := ih hpre' r.2.1 r.2.2
      refine ⟨?_, ?_⟩
      · obtain ⟨t, ht⟩ := h1
        exact ⟨t, by rw [List.cons_append, ht, List.cons_append]⟩
      · intro b d s h
        obtain ⟨h3, h4⟩ := h2 b d s h
        exact ⟨by rw [h3, List.cons_append], h4⟩

/-- C11.  In a line whose stage list has `e` as its first `exit` stage: the
stages for which `execute_command` is called are stages up to `e`, never one
after it; and when the stages before `e` complete, with buffer `d`, exactly
they and `e` are dispatched and `execute_line` hands `d` to the output sink
and returns false. -/
theorem exit_stops_pipeline {σ : Type} (env : Env σ) (line : Str) (st : σ)
    (pre post : List Str) (e file : Str) (rest : List Str)
    (hparse : parse_line line = .ok (pre ++ e :: post, file))
    (hpre : ∀ c ∈ pre, ∀ r, split_by_any_of c WHITESPACES ≠ .ok ("exit".toList :: r))
    (he : split_by_any_of e WHITESPACES = .ok ("exit".toList :: rest)) :
    dispatched env (pre ++ e :: post) true [] st <+: pre ++ [e] ∧
      ∀ b d s, run_stages env pre true [] st = .ok (b, d, s) →
        dispatched env (pre ++ e :: post) true [] st = pre ++ [e] ∧
          execute_line env line st = .ok (false, output_sink env file d s) := by
  obtain ⟨h1, h2⟩ := run_stages_exit env pre post e rest hpre he [] st
  refine ⟨h1, ?_⟩
  intro b d s h
  obtain ⟨h3, h4⟩ := h2 b d s h
  refine ⟨h3, ?_⟩
  unfold execute_line
  rw [hparse]
  dsimp only
  rw [h4]
  dsimp only
  unfold output_sink
  split_ifs <;> rfl

/-- Witness of C11: in `cat | exit | tail -n` the stage `tail -n`, which
could not be run, is not dispatched, and the empty buffer goes to the
terminal. -/
theorem exit_stops_pipeline_witness :
    parse_line "cat | exit | tail -n".toList =
        .ok (["cat".toList] ++ "exit".toList :: ["tail -n".toList], []) ∧
      run_stages idle_env ["cat".toList] true [] () = .ok (true, [], ()) ∧
      dispatched idle_env (["cat".toList] ++ "exit".toList :: ["tail -n".toList]) true [] () =
        ["cat".toList] ++ ["exit".toList] ∧
      execute_line idle_env "cat | exit | tail -n".toList () =
        .ok (false, output_sink idle_env [] [] ()) :=
  have hp : parse_line "cat | exit | tail -n".toList =
      .ok (["cat".toList] ++ "exit".toList :: ["tail -n".toList], []) := by decide
  have hr : run_stages idle_env ["cat".toList] true [] () = .ok (true, [], ()) := by decide
  have hc : ∀ c ∈ ["cat".toList], ∀ r,
      split_by_any_of c WHITESPACES ≠ .ok ("exit".toList :: r) := by
    intro c hc r h
    rw [List.mem_singleton] at hc
    subst hc
    have hs : split_by_any_of "cat".toList WHITESPACES = .ok ["cat".toList] := by decide
    rw [hs] at h
    simp only [Except.ok.injEq, List.cons.injEq] at h
    exact absurd h.1 (by decide)
  ⟨hp, hr,
    (exit_stops_pipeline idle_env "cat | exit | tail -n".toList () ["cat".toList]
      ["tail -n".toList] "exit".toList [] [] hp hc (by decide)).2 true [] () hr⟩

/-! ## Redirection -/

/-- C14.  The last stage `cat > > f` has a `>`, and between its two `>` there
is only a space: the split at `>` calls `trim` on that fragment, which throws,
so `execute_line` neither extracts the target `f` nor runs the stage. -/
theorem parse_line_blank_part_throws :
    split_by_any_of "cat > > f".toList ['|'] = .ok ["cat > > f".toList] ∧
      parse_line "cat > > f".toList = .error .out_of_range ∧
      execute_line idle_env "cat > > f".toList () = .error .out_of_range := by
  decide

/-! ## `tail` with malformed arguments -/

/-- C12.  `tail` can fail: with `-n` or `-c` as last argument the loop reads
`arg[idx]` past the end of the vector; with the count `-5` in byte mode on the
buffer `"hello"`, `start` is `5 + 5 - 1 = 9` and `substr(9, ...)` throws; and
in line mode a buffer with a row of blanks makes `trim` throw. -/
theorem tail_can_fail {σ : Type} (env : Env σ) (st : σ) (data : Str) :
    command_tail env st ["tail".toList, "-n".toList] data = .error .undefined ∧
      command_tail env st ["tail".toList, "-c".toList] data = .error .undefined ∧
      command_tail env st ["tail".toList, "-c".toList, "-5".toList] "hello".toList =
        .error .out_of_range ∧
      command_tail env st ["tail".toList] "a\n \nb\n".toList = .error .out_of_range :=
  ⟨rfl, rfl, rfl, rfl⟩

/-! ## Idempotence of line mode -/

theorem to_int_to_size_t_mod (x : Int) : to_int ((to_size_t x : Nat) : Int) = to_int x := by
  unfold to_int to_size_t
  have h3 : (0 : Int) ≤ x % 2 ^ 64 := Int.emod_nonneg _ (by norm_num)
  rw [Int.toNat_of_nonneg h3]
  omega

/-- The start row `k0` that line mode computes for `k` rows, and the start row
`k1` it computes for the `k - k0` rows it kept: the second is `0`, unless no row
was kept. -/
theorem line_start_idem (k : Nat) (N : Int) (k0 k1 : Nat)
    (h0 : k0 = to_size_t (if to_int ((to_size_t ((k : Int) - N) : Nat) : Int) < 0 then 0
      else to_int ((to_size_t ((k : Int) - N) : Nat) : Int)))
    (h1 : k1 = to_size_t
      (if to_int ((to_size_t (((k - k0 : Nat) : Int) - N) : Nat) : Int) < 0 then 0
        else to_int ((to_size_t (((k - k0 : Nat) : Int) - N) : Nat) : Int))) :
    k1 = 0 ∨ k ≤ k0 := by
  rw [to_int_to_size_t_mod] at h0 h1
  unfold to_int to_size_t at h0 h1
  omega

theorem tail_buffer_lines_idem (N : Int) (data out : Str)
    (h : tail_buffer_lines N data = .ok out) : tail_buffer_lines N out = .ok out := by
  unfold tail_buffer_lines at h
  cases hs : split_by_any_of data ['\n'] with
  | error e => rw [hs] at h; exact absurd h (by simp)
  | ok ts =>
    rw [hs] at h
    simp only [Except.ok.injEq] at h
    rw [append_rows_eq, List.nil_append] at h
    have htok : ∀ l ∈ ts.drop (to_size_t
        (if to_int ((to_size_t ((ts.length : Int) - N) : Nat) : Int) < 0 then 0
          else to_int ((to_size_t ((ts.length : Int) - N) : Nat) : Int))),
        is_token ['\n'] l :=
      fun l hl => split_elements_token data ['\n'] ts hs l (List.mem_of_mem_drop hl)
    have hsplit := split_unlines _ htok
    rw [h] at hsplit
    unfold tail_buffer_lines
    rw [hsplit]
    simp only [Except.ok.injEq]
    rw [append_rows_eq, List.nil_append, List.length_drop]
    rcases line_start_idem ts.length N _ _ rfl rfl with h1 | h1
    · rw [h1, List.drop_zero]
      exact h
    · rw [List.drop_eq_nil_of_le h1] at h ⊢
      rw [List.drop_nil]
      exact h

theorem command_tail_args_error {σ : Type} (env : Env σ) (st : σ) (arg : List Str)
    (data : Str) (e : Fault) (h : tail_args (arg.drop 1) TailOpts.init = .error e) :
    command_tail env st arg data = .error e := by
  unfold command_tail
  rw [h]

/-- C19.  Line mode on the buffer is idempotent: when `tail -n N` returns a
buffer, `tail -n N` on that buffer returns it unchanged, for every count
argument and every size of buffer. -/
theorem tail_lines_idempotent {σ : Type} (env : Env σ) (st : σ) (tok data out : Str)
    (h : command_tail env st ["tail".toList, "-n".toList, tok] data = .ok out) :
    command_tail env st ["tail".toList, "-n".toList, tok] out = .ok out := by
  cases hat : atoi tok with
  | error e =>
    have hargs : tail_args (["tail".toList, "-n".toList, tok].drop 1) TailOpts.init =
        .error e := by
      show tail_args ["-n".toList, tok] TailOpts.init = _
      rw [tail_args_n, hat]
    rw [command_tail_args_error env st _ _ e hargs] at h
    exact absurd h (by simp)
  | ok N =>
    have hargs : tail_args (["tail".toList, "-n".toList, tok].drop 1) TailOpts.init =
        .ok ⟨true, 1, N, []⟩ := by
      show tail_args ["-n".toList, tok] TailOpts.init = _
      rw [tail_args_n, hat]
    rw [command_tail_buffer_lines env st _ _ _ hargs rfl rfl] at h ⊢
    exact tail_buffer_lines_idem N data out h

/-- Witness of C19: `tail -n 2` on `" a\n\nb\nc\n"` gives `"b\nc\n"`, and again
`"b\nc\n"`. -/
theorem tail_lines_idempotent_witness :
    command_tail idle_env () ["tail".toList, "-n".toList, "2".toList] " a\n\nb\nc\n".toList =
        .ok "b\nc\n".toList ∧
      command_tail idle_env () ["tail".toList, "-n".toList, "2".toList] "b\nc\n".toList =
        .ok "b\nc\n".toList :=
  ⟨by decide,
    tail_lines_idempotent idle_env () "2".toList " a\n\nb\nc\n".toList "b\nc\n".toList
      (by decide)⟩

/-! ## Unrecognized flags -/

theorem tail_args_skip (x : Str) (rest : List Str) (o : TailOpts) (hx : x.head? = some '-')
    (hr : ¬ tail_recognized x) : tail_args (x :: rest) o = tail_args rest o := by
  unfold tail_recognized at hr
  simp only [not_or] at hr
  obtain ⟨h1, h2, h3, h4, h5, h6, h7, h8, h9⟩ := hr
  rw [tail_args.eq_def]
  simp only [h1, h2, h3, h4, h5, h6, h7, h8, h9, hx, or_self, if_false, ne_eq,
    not_true_eq_false, Bool.false_eq_true]

theorem uniq_args_skip (x : Str) (rest : List Str) (o : UniqOpts) (hx : x.head? = some '-')
    (hr : ¬ uniq_recognized x) : uniq_args (x :: rest) o = uniq_args rest o := by
  unfold uniq_recognized at hr
  simp only [not_or] at hr
  obtain ⟨h1, h2, h3, h4, h5, h6⟩ := hr
  rw [uniq_args.eq_def]
  simp only [h1, h2, h3, h4, h5, h6, hx, or_self, if_false, ne_eq, not_true_eq_false]

theorem uniq_args_insert (pre post : List Str) (x : Str) (o : UniqOpts)
    (hx : x.head? = some '-') (hr : ¬ uniq_recognized x) :
    uniq_args (pre ++ x :: post) o = uniq_args (pre ++ post) o := by
  induction pre generalizing o with
  | nil => exact uniq_args_skip x post o hx hr
  | cons a pre ih =>
    rw [List.cons_append, List.cons_append, uniq_args.eq_def (a :: (pre ++ x :: post)),
      uniq_args.eq_def (a :: (pre ++ post))]
    dsimp only
    split_ifs <;> exact ih _

/-- An argument that is neither `-c` nor `-n` is handled on its own. -/
theorem tail_args_cons_other (a : Str) (l : List Str) (o : TailOpts)
    (hc : a ≠ "-c".toList) (hn : a ≠ "-n".toList) :
    tail_args (a :: l) o =
      match tail_args [a] o with
      | .error e => .error e
      | .ok o' => tail_args l o' := by
  rw [tail_args.eq_def (a :: l) o, tail_args.eq_def [a] o]
  dsimp only
  split_ifs
  · simp [tail_args]
  · simp [tail_args]
  · cases atoi (a.drop 8) <;> simp [tail_args]
  · cases atoi (a.drop 8) <;> simp [tail_args]
  · simp [tail_args]
  · simp [tail_args]

/-- The arguments `-c` and `-n` are handled together with the argument that
follows them. -/
theorem tail_args_cons_value (a v : Str) (l : List Str) (o : TailOpts)
    (h : a = "-c".toList ∨ a = "-n".toList) :
    tail_args (a :: v :: l) o =
      match tail_args [a, v] o with
      | .error e => .error e
      | .ok o' => tail_args l o' := by
  rw [tail_args.eq_def (a :: v :: l) o, tail_args.eq_def [a, v] o]
  dsimp only
  rcases h with rfl | rfl
  · simp only [show ¬ ("-c".toList = "-q".toList ∨ "-c".toList = "--quiet".toList ∨
        "-c".toList = "--silent".toList) by decide,
      show ¬ ("-c".toList = "-v".toList ∨ "-c".toList = "--verbose".toList) by decide,
      if_false, if_true]
    cases atoi v <;> simp [tail_args]
  · simp only [show ¬ ("-n".toList = "-q".toList ∨ "-n".toList = "--quiet".toList ∨
        "-n".toList = "--silent".toList) by decide,
      show ¬ ("-n".toList = "-v".toList ∨ "-n".toList = "--verbose".toList) by decide,
      show ¬ ("-n".toList = "-c".toList) by decide,
      show ¬ (starts_with "--bytes=".toList "-n".toList = true) by decide,
      if_false, if_true]
    cases atoi v <;> simp [tail_args]

/-- Arguments whose last one is neither `-c` nor `-n` are handled before, and
independently of, the arguments that follow them. -/
theorem tail_args_append (n : Nat) :
    ∀ (pre rest : List Str) (o : TailOpts), pre.length ≤ n →
      (∀ l, pre.getLast? = some l → l ≠ "-c".toList ∧ l ≠ "-n".toList) →
      tail_args (pre ++ rest) o =
        match tail_args pre o with
        | .error e => .error e
        | .ok o' => tail_args rest o' := by
  induction n using Nat.strong_induction_on with
  | _ n ih =>
    intro pre rest o hlen hlast
    match pre, hlen, hlast with
    | [], _, _ => simp [tail_args]
    | [a], _, hlast =>
      obtain ⟨hc, hn⟩ := hlast a rfl
      exact tail_args_cons_other a rest o hc hn
    | a :: v :: pre', hlen, hlast =>
      have hlast' : ∀ l, (v :: pre').getLast? = some l → l ≠ "-c".toList ∧ l ≠ "-n".toList := by
        intro l hl
        exact hlast l (by rw [List.getLast?_cons_cons]; exact hl)
      simp only [List.length_cons] at hlen
      by_cases hv : a = "-c".toList ∨ a = "-n".toList
      · rw [List.cons_append, List.cons_append, tail_args_cons_value a v _ o hv,
          tail_args_cons_value a v pre' o hv]
        cases tail_args [a, v] o with
        | error e => rfl
        | ok o' =>
          dsimp only
          apply ih (n - 2) (by omega) pre' rest o' (by omega)
          intro l hl
          cases pre' with
          | nil => simp at hl
          | cons b bs => exact hlast' l (by rw [List.getLast?_cons_cons]; exact hl)
      · simp only [not_or] at hv
        rw [List.cons_append, tail_args_cons_other a _ o hv.1 hv.2,
          tail_args_cons_other a (v :: pre') o hv.1 hv.2]
        cases tail_args [a] o with
        | error e => rfl
        | ok o' =>
          dsimp only
          exact ih (n - 1) (by omega) (v :: pre') rest o' (by simp; omega) hlast'

theorem tail_args_insert (pre post : List Str) (x : Str) (o : TailOpts)
    (hx : x.head? = some '-') (hr : ¬ tail_recognized x)
    (hlast : ∀ l, pre.getLast? = some l → l ≠ "-c".toList ∧ l ≠ "-n".toList) :
    tail_args (pre ++ x :: post) o = tail_args (pre ++ post) o := by
  rw [tail_args_append pre.length pre (x :: post) o (le_refl _) hlast,
    tail_args_append pre.length pre post o (le_refl _) hlast]
  cases tail_args pre o with
  | error e => rfl
  | ok o' => exact tail_args_skip x post o' hx hr

/-- C17.  A token `x` that begins with `-` and is not a flag that the command
recognizes changes nothing: inserted among the arguments of `tail` at a place
that does not directly follow `-c` or `-n`, or anywhere among the arguments of
`uniq`, it leaves the result of the command (buffer, world, or failure) as it is
without the token. -/
theorem unrecognized_flag_ignored {σ : Type} (env : Env σ) (st : σ) (data name : Str)
    (pre post : List Str) (x : Str) (hx : x.head? = some '-') :
    (¬ tail_recognized x →
        (∀ l, pre.getLast? = some l → l ≠ "-c".toList ∧ l ≠ "-n".toList) →
        command_tail env st (name :: (pre ++ x :: post)) data =
          command_tail env st (name :: (pre ++ post)) data) ∧
      (¬ uniq_recognized x →
        command_uniq env (name :: (pre ++ x :: post)) data st =
          command_uniq env (name :: (pre ++ post)) data st) := by
  constructor
  · intro hr hlast
    unfold command_tail
    simp only [List.drop_succ_cons, List.drop_zero]
    rw [tail_args_insert pre post x _ hx hr hlast]
  · intro hr
    unfold command_uniq
    simp only [List.drop_succ_cons, List.drop_zero, uniq_args_insert pre post x _ hx hr]

/-- Witness of C17: `-x` between `-q` and `-n 1` of `tail`, and between `-d`
and `-i` of `uniq`. -/
theorem unrecognized_flag_ignored_witness :
    command_tail idle_env () ("tail".toList :: (["-q".toList] ++
          ["-n".toList, "1".toList])) "a\nb\n".toList = .ok "b\n".toList ∧
      command_tail idle_env () ("tail".toList :: (["-q".toList] ++ "-x".toList ::
          ["-n".toList, "1".toList])) "a\nb\n".toList =
        command_tail idle_env () ("tail".toList :: (["-q".toList] ++
          ["-n".toList, "1".toList])) "a\nb\n".toList ∧
      command_uniq idle_env ("uniq".toList :: (["-d".toList] ++ "-x".toList ::
          ["-i".toList])) "a\nA\n".toList () =
        command_uniq idle_env ("uniq".toList :: (["-d".toList] ++ ["-i".toList]))
          "a\nA\n".toList () :=
  have hx : "-x".toList.head? = some '-' := rfl
  have h := unrecognized_flag_ignored idle_env () "a\nb\n".toList "tail".toList
    ["-q".toList] ["-n".toList, "1".toList] "-x".toList hx
  have h' := unrecognized_flag_ignored idle_env () "a\nA\n".toList "uniq".toList
    ["-d".toList] ["-i".toList] "-x".toList hx
  ⟨by decide, h.1 (by unfold tail_recognized; decide) (by decide),
    h'.2 (by unfold uniq_recognized; decide)⟩

/-! ## The output sink -/

theorem c_str_of_no_nul (data : Str) (h : ∀ c ∈ data, c ≠ '\x00') : c_str data = data := by
  unfold c_str
  rw [List.takeWhile_eq_self_iff]
  intro c hc
  simpa using h c hc

/-- C15, as the code has it.  When `execute_line` returns, the world it leaves
is the world after the stages with one sink operation applied to it: with no
redirection target, `printw` of the final buffer up to its first NUL byte, which
is the whole buffer when it has no NUL byte; with a target, one write of the
whole buffer to the target file, and no `printw`. -/
theorem execute_line_sink {σ : Type} (env : Env σ) (line : Str) (st st' : σ) (b : Bool)
    (h : execute_line env line st = .ok (b, st')) :
    ∃ command file data s, parse_line line = .ok (command, file) ∧
      run_stages env command true [] st = .ok (b, data, s) ∧
      ((file = [] ∧ st' = env.printw s (c_str data) ∧
          ((∀ c ∈ data, c ≠ '\x00') → st' = env.printw s data)) ∨
        (file ≠ [] ∧ st' = env.write_file s (c_str file) data)) := by
  unfold execute_line at h
  cases hp : parse_line line with
  | error e => rw [hp] at h; exact absurd h (by simp)
  | ok pr =>
    obtain ⟨command, file⟩ := pr
    rw [hp] at h
    dsimp only at h
    cases hr : run_stages env command true [] st with
    | error e => rw [hr] at h; exact absurd h (by simp)
    | ok r =>
      obtain ⟨b', data, s⟩ := r
      rw [hr] at h
      dsimp only at h
      refine ⟨command, file, data, s, rfl, ?_⟩
      split_ifs at h with hf
      · simp only [Except.ok.injEq, Prod.mk.injEq] at h
        obtain ⟨rfl, rfl⟩ := h
        refine ⟨hr, Or.inl ⟨List.length_eq_zero.mp hf, rfl, ?_⟩⟩
        intro hn
        rw [c_str_of_no_nul data hn]
      · simp only [Except.ok.injEq, Prod.mk.injEq] at h
        obtain ⟨rfl, rfl⟩ := h
        exact ⟨hr, Or.inr ⟨fun hnil => hf (by rw [hnil]; rfl), rfl⟩⟩

/-- Witness of C15 as amended: `tail -n 1 > out.txt` writes the buffer to
`out.txt` and leaves the screen as it was. -/
theorem execute_line_sink_witness :
    execute_line file_env "tail -n 1 > out.txt".toList ⟨[], "$ ".toList⟩ =
        .ok (true, ⟨[("out.txt".toList, [])], "$ ".toList⟩) ∧
      ∃ command file data s,
        parse_line "tail -n 1 > out.txt".toList = .ok (command, file) ∧
        run_stages file_env command true [] ⟨[], "$ ".toList⟩ = .ok (true, data, s) ∧
        ((file = [] ∧
            (⟨[("out.txt".toList, [])], "$ ".toList⟩ : World) = file_env.printw s (c_str data) ∧
            ((∀ c ∈ data, c ≠ '\x00') →
              (⟨[("out.txt".toList, [])], "$ ".toList⟩ : World) = file_env.printw s data)) ∨
          (file ≠ [] ∧
            (⟨[("out.txt".toList, [])], "$ ".toList⟩ : World) =
              file_env.write_file s (c_str file) data)) :=
  ⟨by decide,
    execute_line_sink file_env "tail -n 1 > out.txt".toList ⟨[], "$ ".toList⟩
      ⟨[("out.txt".toList, [])], "$ ".toList⟩ true (by decide)⟩

/-- Counterexample to C15 as stated: with a file `f` that holds `a`, a NUL
byte and `b`, the line `tail f` ends with the buffer `"a\x00b\n"` and shows
only `a` on the terminal. -/
theorem execute_line_cuts_at_nul :
    parse_line "tail f".toList = .ok (["tail f".toList], []) ∧
      run_stages file_env ["tail f".toList] true [] ⟨[("f".toList, "a\x00b".toList)], []⟩ =
        .ok (true, "a\x00b\n".toList, ⟨[("f".toList, "a\x00b".toList)], []⟩) ∧
      execute_line file_env "tail f".toList ⟨[("f".toList, "a\x00b".toList)], []⟩ =
        .ok (true, ⟨[("f".toList, "a\x00b".toList)], "a".toList⟩) ∧
      "a".toList ≠ "a\x00b\n".toList := by
  decide

/-! ## `tail` with file arguments -/

/-- C18.  In byte mode with a file argument the incoming buffer is kept and
the output appended to it: with `f` holding `hello`, `tail -c 3 f` gives
`"Xll\n"` on the incoming buffer `"X"` and `"ll\n"` on the empty one.  In line
mode the two incoming buffers give the same result. -/
theorem tail_bytes_files_keep_buffer :
    command_tail file_env ⟨[("f".toList, "hello".toList)], []⟩
        ["tail".toList, "-c".toList, "3".toList, "f".toList] "X".toList = .ok "Xll\n".toList ∧
      command_tail file_env ⟨[("f".toList, "hello".toList)], []⟩
        ["tail".toList, "-c".toList, "3".toList, "f".toList] [] = .ok "ll\n".toList ∧
      command_tail file_env ⟨[("f".toList, "hello".toList)], []⟩
        ["tail".toList, "-n".toList, "3".toList, "f".toList] "X".toList = .ok "hello\n".toList ∧
      command_tail file_env ⟨[("f".toList, "hello".toList)], []⟩
        ["tail".toList, "-n".toList, "3".toList, "f".toList] [] = .ok "hello\n".toList := by
  decide

end Shell
